import Mathlib

/-!
Verification development for the animated BST visualizer
(single source file `src/main.cpp`).

Modelling conventions (shallow embedding):

* A `Node*` pointer is modelled by the inductive type `Tree`;
  a null pointer is `Tree.leaf`, a heap node with key `value` and child
  pointers `left`, `right` is `Tree.node left value right`.  The visual
  fields (`x`, `y`, `tx`, `ty`, `alpha`, `color`) of the one node a state
  machine touches are lifted into the machine state record.
* C++ `int` keys are `Int` (no arithmetic on keys is performed, only
  comparisons, so overflow is irrelevant).
* C++ `float` time quantities are modelled exactly: times are integers
  counting hundredths of a second (every time constant in the source —
  0.5, 0.12, 0.6, 0.8 — is a whole number of hundredths: 50, 12, 60, 80),
  and the opacity `alpha` is an integer counting hundredths of an opacity
  unit (initial 1.0 = 100; `alpha -= dt * 3` becomes
  `alpha -= dt * 3` in the scaled units).  The vertical position `y` is
  measured in pixels (`y += dt * 300` pixels per second becomes
  `y += dt * 3` pixels per hundredth).  This is the exact real-number
  semantics of the code restricted to frame times that are whole
  hundredths of a second; float rounding is not modelled.
* The frame loop of `main` is modelled by explicit tick functions folded
  over a list of per-frame inputs (elapsed time `dt`, arrow-key presses).
  `AnimateNodes` (position interpolation toward layout targets) also runs
  every frame, but it touches neither the mode, the phase indices, the
  timers, the opacity, nor the tree, so it is modelled separately
  (`AnimateNodesWalk`) and not folded into the per-frame machine ticks.
* Out-of-bounds array accesses and null-pointer dereferences are modelled
  by `Except` error results.
-/

set_option maxRecDepth 4000

namespace BSTV

/-- Tree shape of the global `Node` store: `leaf` is a null `Node*`,
`node l v r` is a heap node with key `v` and children `l`, `r`. -/
inductive Tree where
  | leaf : Tree
  | node : Tree → Int → Tree → Tree
deriving DecidableEq, Repr

/-- Number of live nodes of a tree. -/
def sizeT : Tree → Nat
  | .leaf => 0
  | .node l _ r => sizeT l + sizeT r + 1

/-- Membership of a key in a tree (any position, not only the search path). -/
def tmem (v : Int) : Tree → Bool
  | .leaf => false
  | .node l x r => (v == x) || tmem v l || tmem v r

/-- All keys of the tree satisfy `p`. -/
def treeAll (p : Int → Bool) : Tree → Bool
  | .leaf => true
  | .node l x r => p x && treeAll p l && treeAll p r

/-- BST ordering invariant of the spec: at every node, all keys of the left
subtree are strictly below the node key and all keys of the right subtree
strictly above it. -/
def isBST : Tree → Bool
  | .leaf => true
  | .node l x r =>
      treeAll (fun y => decide (y < x)) l &&
      treeAll (fun y => decide (x < y)) r &&
      isBST l && isBST r

/-- Model of `Insert` from the source: descend comparing `v`; `v < value` goes left,
`v > value` goes right, equality changes nothing (`CreateNode` at a null
link). -/
def Insert : Tree → Int → Tree
  | .leaf, v => .node .leaf v .leaf
  | .node l x r, v =>
      if v < x then .node (Insert l v) x r
      else if x < v then .node l x (Insert r v)
      else .node l x r

/-- Model of `MinNode` from the source: follow left links while a left child exists;
returns the key of the node the final pointer designates, `none` for a null
argument. -/
def MinNode : Tree → Option Int
  | .leaf => none
  | .node l x _ => if l = .leaf then some x else MinNode l

/-- Model of `DeleteNode` from the source: standard BST delete; in the two-children
case the node keeps its links but takes the key of the minimum of the right
subtree, which is then deleted by key from the right subtree.  The `none`
branch of the inner match is unreachable (the right child is non-null
there; in C++ that branch would dereference a null pointer). -/
def DeleteNode : Tree → Int → Tree
  | .leaf, _ => .leaf
  | .node l x r, v =>
      if v < x then .node (DeleteNode l v) x r
      else if x < v then .node l x (DeleteNode r v)
      else if l = .leaf then r
      else if r = .leaf then l
      else
        match MinNode r with
        | some m => .node l m (DeleteNode r m)
        | none => .leaf

/-- Tree built by clicking INSERT once per element of `xs`, left to right,
starting from the empty store (`root = nullptr`). -/
def buildTree (xs : List Int) : Tree := xs.foldl Insert .leaf

/-- Recursive in-order visitation sequence (left, node, right). -/
def inorder : Tree → List Int
  | .leaf => []
  | .node l v r => inorder l ++ v :: inorder r

/-- Recursive pre-order visitation sequence (node, left, right). -/
def preorder : Tree → List Int
  | .leaf => []
  | .node l v r => v :: (preorder l ++ preorder r)

/-- Recursive post-order visitation sequence (left, right, node). -/
def postorder : Tree → List Int
  | .leaf => []
  | .node l v r => postorder l ++ postorder r ++ [v]

/-! State machines.  The global `Mode` enum of the source. -/

/-- Mode enum of the source (which high-level state machine is active). -/
inductive Mode where
  | IDLE | INSERTING | SEARCHING | DELETING
  | TRAVERSING_IN | TRAVERSING_PRE | TRAVERSING_POST
deriving DecidableEq, Repr

/-- Linear interpolation helper of the source (used by `AnimateNodes`;
stated over `ℚ` for reference, not folded into the machine ticks). -/
def lerp (a b t : ℚ) : ℚ := a + (b - a) * t

/-! Search State Machine (`StartSearchAnimation` / `UpdateSearch`).

The global variables the search code reads and writes are gathered in one
record: the mode, the `current` cursor pointer (as the subtree it points
to), the `found` flag, the function-local `static float moveTimer` (which
persists across searches, hence it is a parameter of the start function),
and the algorithm-panel step cursor (`algoStepIndex`, `algoTimer`; during a
search `algoSteps` has 4 labels).  All times are in hundredths of a
second: the 0.5 panel interval is 50, the 0.6 dwell is 60. -/

structure SearchState where
  mode : Mode
  cur : Tree
  found : Bool
  moveTimer : Int
  algoStep : Nat
  algoTimer : Int
deriving DecidableEq, Repr

/-- Model of `StartSearchAnimation`: mode becomes SEARCHING, `found` is cleared, the
cursor is put on the root, the panel cursor restarts; the static
`moveTimer` keeps its previous value `m0`. -/
def startSearch (t : Tree) (m0 : Int) : SearchState :=
  { mode := .SEARCHING, cur := t, found := false,
    moveTimer := m0, algoStep := 0, algoTimer := 0 }

/-- Model of `UpdateSearch`: a null cursor goes to IDLE at once; otherwise the panel
cursor may advance (interval 0.5 = 50, last index 3), and after a 0.6 = 60
dwell the machine compares the target `v` with the cursor key: equal sets
`found` and goes to IDLE, smaller moves to the left child, larger to the
right child. -/
def updateSearch (v : Int) (s : SearchState) (dt : Int) : SearchState :=
  if s.cur = .leaf then { s with mode := .IDLE }
  else
    let s1 :=
      if s.algoTimer + dt > 50 ∧ s.algoStep < 3 then
        { s with algoStep := s.algoStep + 1, algoTimer := 0 }
      else
        { s with algoTimer := s.algoTimer + dt }
    if s1.moveTimer + dt < 60 then { s1 with moveTimer := s1.moveTimer + dt }
    else
      let s2 := { s1 with moveTimer := 0 }
      match s2.cur with
      | .leaf => s2
      | .node l x r =>
        if v = x then { s2 with found := true, mode := .IDLE }
        else if v < x then { s2 with cur := l }
        else { s2 with cur := r }

/-- One frame of the main loop while a search is on: `UpdateSearch` runs
only when the mode is SEARCHING. -/
def searchTick (v : Int) (s : SearchState) (dt : Int) : SearchState :=
  if s.mode = .SEARCHING then updateSearch v s dt else s

/-- Fold of `searchTick` over the frame times of a run. -/
def runSearch (v : Int) (s : SearchState) (dts : List Int) : SearchState :=
  dts.foldl (searchTick v) s

/-! Delete State Machine (`StartDeleteAnimation` / `UpdateDelete`).

The machine state gathers the globals `mode`, `root`, `inputValue`,
`delNode` (kept as the key of the node the pointer designates, `none` when
null), `delFlashTimer`, `delFlashCount`, the panel cursor (`algoStepIndex`
doubles as the phase index: 0 locate, 1 flash, 2 drop, 3 fade, 4 commit;
during a delete `algoSteps` has 5 labels) and the visual fields of the one
node the machine touches: its current height `delY` in pixels, its opacity
`delAlpha` in hundredths, and whether its color is currently RED
(`delRed`; LIGHTGRAY otherwise).  Times are in hundredths of a second
(0.5 = 50, 0.12 = 12), so the drop `y += dt * 300` px/s is
`delY += dt * 3` px and the fade `alpha -= dt * 3` /s is
`delAlpha -= dt * 3` hundredths. -/

structure DelState where
  mode : Mode
  root : Tree
  input : Int
  delNode : Option Int
  delY : Int
  delAlpha : Int
  delRed : Bool
  delFlashTimer : Int
  delFlashCount : Nat
  algoStep : Nat
  algoTimer : Int
deriving DecidableEq, Repr

/-- Iterative locate loop of `StartDeleteAnimation`: walk from the root by
comparison and return the key of the node found (`none` when the search
path ends at a null pointer). -/
def locate (t : Tree) (v : Int) : Option Int :=
  match t with
  | .leaf => none
  | .node l x r =>
      if x = v then some x
      else if v < x then locate l v
      else locate r v

/-- Model of `StartDeleteAnimation` on tree `t` with current input value `v0`; the
target node currently sits at height `y0` with opacity `a0` and color flag
`c0`.  If the locate loop fails the machine aborts to IDLE at once. -/
def startDelete (t : Tree) (v0 : Int) (y0 a0 : Int) (c0 : Bool) : DelState :=
  let d := locate t v0
  { mode := if d = none then .IDLE else .DELETING,
    root := t, input := v0, delNode := d,
    delY := y0, delAlpha := a0, delRed := c0,
    delFlashTimer := 0, delFlashCount := 0,
    algoStep := 0, algoTimer := 0 }

/-- Model of `UpdateDelete`: a null `delNode` aborts to IDLE; otherwise the panel
cursor may advance (interval 0.5 = 50, last index 4) and then the branch of
the current phase index runs: 1 flashes (toggle every 0.12 = 12, seventh
toggle moves to phase 2), 2 drops (past 900 px moves to phase 3), 3 fades
(at opacity 0 moves to phase 4), 4 commits
(`root = DeleteNode(root, inputValue)`) and returns to IDLE. -/
def updateDelete (s : DelState) (dt : Int) : DelState :=
  if s.delNode = none then { s with mode := .IDLE }
  else
    let s1 :=
      if s.algoTimer + dt > 50 ∧ s.algoStep < 4 then
        { s with algoStep := s.algoStep + 1, algoTimer := 0 }
      else
        { s with algoTimer := s.algoTimer + dt }
    if s1.algoStep = 1 then
      let s2 :=
        if s1.delFlashTimer + dt > 12 then
          { s1 with delFlashTimer := 0,
                    delFlashCount := s1.delFlashCount + 1,
                    delRed := (s1.delFlashCount + 1) % 2 == 0 }
        else
          { s1 with delFlashTimer := s1.delFlashTimer + dt }
      if s2.delFlashCount > 6 then { s2 with algoStep := 2 } else s2
    else if s1.algoStep = 2 then
      let s2 := { s1 with delY := s1.delY + dt * 3 }
      if s2.delY > 900 then { s2 with algoStep := 3 } else s2
    else if s1.algoStep = 3 then
      let s2 := { s1 with delAlpha := s1.delAlpha - dt * 3 }
      if s2.delAlpha ≤ 0 then { s2 with algoStep := 4 } else s2
    else if s1.algoStep = 4 then
      { s1 with root := DeleteNode s1.root s1.input, mode := .IDLE }
    else s1

/-- Per-frame external input while a delete animation runs: the elapsed
frame time (hundredths of a second) and whether the UP / DOWN arrow keys
were pressed this frame. -/
structure DelEvent where
  up : Bool
  down : Bool
  dt : Int
deriving DecidableEq, Repr

/-- One frame of the main loop while a delete is on: the arrow keys adjust
`inputValue` first, then `UpdateDelete` runs when (and only when) the mode
is DELETING. -/
def delTick (s : DelState) (e : DelEvent) : DelState :=
  let s := { s with input := s.input + (if e.up then 1 else 0)
                              - (if e.down then 1 else 0) }
  if s.mode = .DELETING then updateDelete s e.dt else s

/-- Fold of `delTick` over the frames of a run. -/
def runDelete (s : DelState) (evs : List DelEvent) : DelState :=
  evs.foldl delTick s

/-! Traversal Engine (`StartTraverseIn`/`Pre`/`Post`, `UpdateTraversal`).

A stack frame holds a node pointer and a phase counter 0..3; the top of
the `travStack` vector is the head of the model list.  A step on a frame
whose node pointer is null dereferences it — modelled as an `Except`
error.  The 0.8 dwell timer only delays steps and does not change which
steps happen, so the step functions are given untimed; each call is one
effective (post-dwell) `UpdateTraversal` step.

The engine is modelled twice.  `UpdateTraversal` binds
`TravFrame& frame = travStack.back()` and, in every branch that descends
to a child, calls `travStack.push_back({child, 0})` BEFORE writing
`frame.state`; a `push_back` at size == capacity reallocates the vector
and invalidates that reference, so the state write is undefined behavior.
`travStep`/`travRun` are the IDEALIZED semantics — the frame update
performed safely, as the surrounding code plainly intends — used for the
null-root dereference of C1 (which happens before any push and is
unaffected by reallocation) and for the intended-order correctness
helpers.  `travStepV`/`travRunV` below track the vector's capacity and
model the dangling-reference write faithfully as an error, like the
null-dereference and stack-overflow errors elsewhere in this file. -/

structure TravFrame where
  node : Tree
  state : Nat
deriving DecidableEq, Repr

/-- One effective `UpdateTraversal` step in mode `m`, idealized semantics
(see the section comment): returns the new stack and the key visited this
step (if the step was a visit phase), or an error when it dereferences a
null node pointer.  An empty stack is left alone (the machine has
returned to IDLE). -/
def travStep (m : Mode) : List TravFrame → Except Unit (List TravFrame × Option Int)
  | [] => .ok ([], none)
  | f :: rest =>
    match f.node with
    | .leaf => .error ()
    | .node l v r =>
      match m with
      | .TRAVERSING_IN =>
        if f.state = 0 then
          .ok ((if l = .leaf then [⟨f.node, 1⟩] else [⟨l, 0⟩, ⟨f.node, 1⟩]) ++ rest, none)
        else if f.state = 1 then
          .ok (⟨f.node, 2⟩ :: rest, some v)
        else if f.state = 2 then
          .ok ((if r = .leaf then [⟨f.node, 3⟩] else [⟨r, 0⟩, ⟨f.node, 3⟩]) ++ rest, none)
        else if f.state = 3 then
          .ok (rest, none)
        else .ok (f :: rest, none)
      | .TRAVERSING_PRE =>
        if f.state = 0 then
          .ok (⟨f.node, 1⟩ :: rest, some v)
        else if f.state = 1 then
          .ok ((if l = .leaf then [⟨f.node, 2⟩] else [⟨l, 0⟩, ⟨f.node, 2⟩]) ++ rest, none)
        else if f.state = 2 then
          .ok ((if r = .leaf then [⟨f.node, 3⟩] else [⟨r, 0⟩, ⟨f.node, 3⟩]) ++ rest, none)
        else if f.state = 3 then
          .ok (rest, none)
        else .ok (f :: rest, none)
      | .TRAVERSING_POST =>
        if f.state = 0 then
          .ok ((if l = .leaf then [⟨f.node, 1⟩] else [⟨l, 0⟩, ⟨f.node, 1⟩]) ++ rest, none)
        else if f.state = 1 then
          .ok ((if r = .leaf then [⟨f.node, 2⟩] else [⟨r, 0⟩, ⟨f.node, 2⟩]) ++ rest, none)
        else if f.state = 2 then
          .ok (⟨f.node, 3⟩ :: rest, some v)
        else if f.state = 3 then
          .ok (rest, none)
        else .ok (f :: rest, none)
      | _ => .ok (f :: rest, none)

/-- Run the idealized traversal machine for at most `fuel` effective
steps, collecting the visited keys in order; stops successfully when the
stack is empty. -/
def travRun (m : Mode) : Nat → List TravFrame → Except Unit (List Int)
  | 0, st => if st = [] then .ok [] else .error ()
  | fuel + 1, st =>
    if st = [] then .ok []
    else
      match travStep m st with
      | .error _ => .error ()
      | .ok (st2, none) => travRun m fuel st2
      | .ok (st2, some v) => Except.map (fun vs => v :: vs) (travRun m fuel st2)

/-- Each of `StartTraverseIn`/`Pre`/`Post` clears the stack and push `{root, 0}`
unconditionally — also when the root pointer is null. -/
def startTravStack (t : Tree) : List TravFrame := [⟨t, 0⟩]

/-- Allocation-aware model of the `travStack` vector: the frames (head =
top of stack) together with the vector's current capacity.  A `push_back`
at size == capacity reallocates; the capacity of a previously unallocated
vector after its first `push_back` is exactly 1 in the mainstream C++
standard libraries (libstdc++, libc++, MSVC). -/
structure TravVec where
  frames : List TravFrame
  cap : Nat
deriving DecidableEq, Repr

/-- Model of `StartTraverseIn`/`Pre`/`Post` over the allocation-aware
stack: `travStack.clear()` keeps the capacity `c0`, then
`push_back({root, 0})` — reallocating to capacity 1 when the vector had
never allocated.  No frame reference is held across this push, so it is
safe regardless of reallocation. -/
def startTravVec (t : Tree) (c0 : Nat) : TravVec :=
  ⟨[⟨t, 0⟩], if c0 = 0 then 1 else c0⟩

/-- One effective `UpdateTraversal` step over the allocation-aware stack.
Every descend branch performs `travStack.push_back({child, 0})` and THEN
writes `frame.state` through the reference taken at the top of the
function; if the push happens at size == capacity it reallocates and that
write dereferences a dangling reference — undefined behavior, modelled as
an error (`push` below).  A push below capacity keeps the reference valid
and behaves as intended (`frame.state` updated under the pushed child);
branches that do not push (`skip`, visit, return) never invalidate the
reference. -/
def travStepV (m : Mode) (vec : TravVec) : Except Unit (TravVec × Option Int) :=
  match vec.frames with
  | [] => .ok (vec, none)
  | f :: rest =>
    match f.node with
    | .leaf => .error ()
    | .node l v r =>
      let push := fun (c : Tree) (s : Nat) =>
        if vec.frames.length = vec.cap then
          (.error () : Except Unit (TravVec × Option Int))
        else .ok (⟨⟨c, 0⟩ :: ⟨f.node, s⟩ :: rest, vec.cap⟩, none)
      let skip := fun (s : Nat) =>
        (.ok (⟨⟨f.node, s⟩ :: rest, vec.cap⟩, none) :
          Except Unit (TravVec × Option Int))
      match m with
      | .TRAVERSING_IN =>
        if f.state = 0 then (if l = .leaf then skip 1 else push l 1)
        else if f.state = 1 then .ok (⟨⟨f.node, 2⟩ :: rest, vec.cap⟩, some v)
        else if f.state = 2 then (if r = .leaf then skip 3 else push r 3)
        else if f.state = 3 then .ok (⟨rest, vec.cap⟩, none)
        else .ok (vec, none)
      | .TRAVERSING_PRE =>
        if f.state = 0 then .ok (⟨⟨f.node, 1⟩ :: rest, vec.cap⟩, some v)
        else if f.state = 1 then (if l = .leaf then skip 2 else push l 2)
        else if f.state = 2 then (if r = .leaf then skip 3 else push r 3)
        else if f.state = 3 then .ok (⟨rest, vec.cap⟩, none)
        else .ok (vec, none)
      | .TRAVERSING_POST =>
        if f.state = 0 then (if l = .leaf then skip 1 else push l 1)
        else if f.state = 1 then (if r = .leaf then skip 2 else push r 2)
        else if f.state = 2 then .ok (⟨⟨f.node, 3⟩ :: rest, vec.cap⟩, some v)
        else if f.state = 3 then .ok (⟨rest, vec.cap⟩, none)
        else .ok (vec, none)
      | _ => .ok (vec, none)

/-- Run the allocation-aware traversal machine for at most `fuel`
effective steps, collecting the visited keys in order; an error
(undefined behavior) aborts the run. -/
def travRunV (m : Mode) : Nat → TravVec → Except Unit (List Int)
  | 0, vec => if vec.frames = [] then .ok [] else .error ()
  | fuel + 1, vec =>
    if vec.frames = [] then .ok []
    else
      match travStepV m vec with
      | .error _ => .error ()
      | .ok (v2, none) => travRunV m fuel v2
      | .ok (v2, some x) => Except.map (fun vs => x :: vs) (travRunV m fuel v2)

/-! Full-tree helper walk of `AnimateNodes` (and, with the same stack
discipline, `ResetTreeColors`): a fixed `Node* stack[100]`, push the root,
then pop a node, update it (interpolate position / reset color), and push
its children.  `stack[top++] = n` with `top = 100` writes out of bounds —
modelled as an `Except.error true`; running out of fuel (which never
happens for the fuel chosen below) is `Except.error false`. -/

/-- Push a node pointer onto the 100-slot helper stack. -/
def pushFixed (c : Tree) (st : List Tree) : Except Bool (List Tree) :=
  if st.length < 100 then .ok (c :: st) else .error true

/-- Pop-and-push loop of `AnimateNodes` / `ResetTreeColors`, returning how
many nodes were visited (popped and updated). -/
def fullWalkAux : Nat → List Tree → Except Bool Nat
  | 0, _ => .error false
  | _ + 1, [] => .ok 0
  | fuel + 1, t :: rest =>
    match t with
    | .leaf => fullWalkAux fuel rest
    | .node l _ r => do
      let st1 ← if l = .leaf then pure rest else pushFixed l rest
      let st2 ← if r = .leaf then pure st1 else pushFixed r st1
      let n ← fullWalkAux fuel st2
      pure (n + 1)

/-- The `AnimateNodes` (and `ResetTreeColors`) walk over the whole live tree:
early return on a null root, otherwise seed the stack with the root and
loop.  One iteration per live node suffices, so the fuel `sizeT t + 1`
is never exhausted. -/
def AnimateNodesWalk (t : Tree) : Except Bool Nat :=
  if t = .leaf then .ok 0
  else fullWalkAux (sizeT t + 1) [t]

/-- Total number of live nodes held on a helper stack. -/
def sumS (st : List Tree) : Nat := (st.map sizeT).sum

/-- Insertion sequence whose BST is a right spine of 101 nodes, each with
one left leaf child (202 nodes in total): 2, 1, 4, 3, 6, 5, …  Walking it
keeps one stacked left leaf per spine level, so the helper stack needs 101
simultaneous slots. -/
def overflowList : List Int :=
  ((List.range 101).map (fun k => [2 * (k : Int) + 2, 2 * (k : Int) + 1])).flatten

/-- Run invariant of the Delete State Machine: the phase index stays in
0..4, at most 7 flash toggles ever happen, and no toggle has happened yet
before the Flash phase. -/
def DelInv (s : DelState) : Prop :=
  s.algoStep ≤ 4 ∧ s.delFlashCount ≤ 7 ∧
  (s.algoStep = 0 → s.delFlashCount = 0) ∧
  (s.algoStep = 1 → s.delFlashCount ≤ 6)

/-! Examples and theorems. -/

/-! Basic lemmas about membership, `treeAll` and the BST invariant. -/

theorem treeAll_spec (p : Int → Bool) :
    ∀ t, treeAll p t = true ↔ ∀ x, tmem x t = true → p x = true := by
  intro t
  induction t with
  | leaf => simp [treeAll, tmem]
  | node l v r ihl ihr =>
    simp only [treeAll, tmem, Bool.and_eq_true, Bool.or_eq_true, beq_iff_eq,
      ihl, ihr]
    constructor
    · rintro ⟨⟨hv, hl⟩, hr⟩ x hx
      rcases hx with (rfl | hx) | hx
      · exact hv
      · exact hl x hx
      · exact hr x hx
    · intro h
      refine ⟨⟨h v (Or.inl (Or.inl rfl)), fun x hx => ?_⟩, fun x hx => ?_⟩
      · exact h x (Or.inl (Or.inr hx))
      · exact h x (Or.inr hx)

theorem treeAll_imp {p q : Int → Bool} (hpq : ∀ x, p x = true → q x = true) :
    ∀ t, treeAll p t = true → treeAll q t = true := by
  intro t ht
  rw [treeAll_spec] at ht ⊢
  exact fun x hx => hpq x (ht x hx)

theorem tmem_Insert (v x : Int) :
    ∀ t, tmem x (Insert t v) = ((x == v) || tmem x t) := by
  intro t
  induction t with
  | leaf => simp [Insert, tmem, Bool.or_comm]
  | node l y r ihl ihr =>
    by_cases h1 : v < y
    · simp only [Insert, if_pos h1, tmem, ihl]
      cases x == y <;> cases x == v <;> cases tmem x l <;> cases tmem x r <;> rfl
    · by_cases h2 : y < v
      · simp only [Insert, if_neg h1, if_pos h2, tmem, ihr]
        cases x == y <;> cases x == v <;> cases tmem x l <;> cases tmem x r <;> rfl
      · have hvy : v = y := le_antisymm (not_lt.mp h2) (not_lt.mp h1)
        subst hvy
        simp only [Insert, if_neg h1, if_neg h2, tmem]
        by_cases hxv : x = v
        · simp [hxv]
        · simp [hxv, beq_iff_eq]

theorem treeAll_Insert {p : Int → Bool} {v : Int} (hv : p v = true) :
    ∀ t, treeAll p t = true → treeAll p (Insert t v) = true := by
  intro t ht
  rw [treeAll_spec] at ht ⊢
  intro x hx
  rw [tmem_Insert] at hx
  rcases Bool.or_eq_true .. |>.mp hx with hx | hx
  · exact (beq_iff_eq ..).mp hx ▸ hv
  · exact ht x hx

theorem isBST_Insert (v : Int) :
    ∀ t, isBST t = true → isBST (Insert t v) = true := by
  intro t
  induction t with
  | leaf => intro _; simp [Insert, isBST, treeAll]
  | node l x r ihl ihr =>
    intro ht
    simp only [isBST, Bool.and_eq_true] at ht
    obtain ⟨⟨⟨hal, har⟩, hbl⟩, hbr⟩ := ht
    by_cases h1 : v < x
    · simp only [Insert, if_pos h1, isBST, Bool.and_eq_true]
      exact ⟨⟨⟨treeAll_Insert (by simpa using h1) l hal, har⟩, ihl hbl⟩, hbr⟩
    · by_cases h2 : x < v
      · simp only [Insert, if_neg h1, if_pos h2, isBST, Bool.and_eq_true]
        exact ⟨⟨⟨hal, treeAll_Insert (by simpa using h2) r har⟩, hbl⟩, ihr hbr⟩
      · simp only [Insert, if_neg h1, if_neg h2, isBST, Bool.and_eq_true]
        exact ⟨⟨⟨hal, har⟩, hbl⟩, hbr⟩

theorem isBST_buildTree_aux (xs : List Int) :
    ∀ t, isBST t = true → isBST (xs.foldl Insert t) = true := by
  induction xs with
  | nil => intro t ht; simpa using ht
  | cons x xs ih =>
    intro t ht
    simpa using ih (Insert t x) (isBST_Insert x t ht)

theorem tmem_buildTree (v : Int) (xs : List Int) :
    tmem v (buildTree xs) = true ↔ v ∈ xs := by
  have aux : ∀ (ys : List Int) (t : Tree),
      tmem v (ys.foldl Insert t) = true ↔ (tmem v t = true ∨ v ∈ ys) := by
    intro ys
    induction ys with
    | nil => simp
    | cons y ys ih =>
      intro t
      simp only [List.foldl_cons, ih, tmem_Insert, Bool.or_eq_true, beq_iff_eq,
        List.mem_cons]
      tauto
  rw [buildTree, aux xs .leaf]
  simp [tmem]

/-! Lemmas about `MinNode` and `DeleteNode`. -/

theorem MinNode_some_of_ne_leaf : ∀ t : Tree, t ≠ .leaf → ∃ m, MinNode t = some m := by
  intro t
  induction t with
  | leaf => intro h; exact absurd rfl h
  | node l x r ihl _ =>
    intro _
    by_cases hl : l = .leaf
    · exact ⟨x, by simp [MinNode, hl]⟩
    · obtain ⟨m, hm⟩ := ihl hl
      exact ⟨m, by simp [MinNode, hl, hm]⟩

theorem MinNode_mem : ∀ t m, MinNode t = some m → tmem m t = true := by
  intro t
  induction t with
  | leaf => intro m h; simp [MinNode] at h
  | node l x r ihl _ =>
    intro m h
    by_cases hl : l = .leaf
    · simp [MinNode, hl] at h
      simp [tmem, h]
    · simp only [MinNode, if_neg hl] at h
      simp [tmem, ihl m h]

theorem MinNode_min : ∀ t, isBST t = true → ∀ m, MinNode t = some m →
    ∀ x, tmem x t = true → m ≤ x := by
  intro t
  induction t with
  | leaf => intro _ m h; simp [MinNode] at h
  | node l y r ihl _ =>
    intro hb m hm x hx
    simp only [isBST, Bool.and_eq_true] at hb
    obtain ⟨⟨⟨hal, har⟩, hbl⟩, hbr⟩ := hb
    simp only [tmem, Bool.or_eq_true, beq_iff_eq] at hx
    by_cases hl : l = .leaf
    · simp [MinNode, hl] at hm
      subst hm
      rcases hx with (rfl | hx) | hx
      · exact le_refl x
      · subst hl; simp [tmem] at hx
      · exact le_of_lt (by simpa using (treeAll_spec _ r).mp har x hx)
    · simp only [MinNode, if_neg hl] at hm
      have hml : tmem m l = true := MinNode_mem l m hm
      have hmy : m < y := by simpa using (treeAll_spec _ l).mp hal m hml
      rcases hx with (rfl | hx) | hx
      · exact le_of_lt hmy
      · exact ihl hbl m hm x hx
      · have : y < x := by simpa using (treeAll_spec _ r).mp har x hx
        exact le_of_lt (lt_trans hmy this)

theorem DeleteNode_node_lt {v x : Int} (h : v < x) (l r : Tree) :
    DeleteNode (.node l x r) v = .node (DeleteNode l v) x r := by
  simp [DeleteNode, h]

theorem DeleteNode_node_gt {v x : Int} (h : x < v) (l r : Tree) :
    DeleteNode (.node l x r) v = .node l x (DeleteNode r v) := by
  simp [DeleteNode, h, asymm h]

theorem DeleteNode_node_self_left_leaf (x : Int) (r : Tree) :
    DeleteNode (.node .leaf x r) x = r := by
  simp [DeleteNode]

theorem DeleteNode_node_self_right_leaf {l : Tree} (hl : l ≠ .leaf) (x : Int) :
    DeleteNode (.node l x .leaf) x = l := by
  simp [DeleteNode, hl]

theorem DeleteNode_node_self_two {l r : Tree} (hl : l ≠ .leaf) (hr : r ≠ .leaf)
    (x m : Int) (hm : MinNode r = some m) :
    DeleteNode (.node l x r) x = .node l m (DeleteNode r m) := by
  simp [DeleteNode, hl, hr, hm]

theorem tmem_node_iff {v y : Int} {l r : Tree} :
    tmem v (.node l y r) = true ↔ v = y ∨ tmem v l = true ∨ tmem v r = true := by
  simp [tmem, or_assoc]

theorem tmem_node_of_lt {v y : Int} {l r : Tree}
    (hb : isBST (.node l y r) = true) (h : v < y) :
    (tmem v (.node l y r) = true ↔ tmem v l = true) := by
  simp only [isBST, Bool.and_eq_true] at hb
  obtain ⟨⟨⟨_, har⟩, _⟩, _⟩ := hb
  rw [tmem_node_iff]
  constructor
  · rintro (rfl | hv | hv)
    · exact absurd h (lt_irrefl v)
    · exact hv
    · have : y < v := by simpa using (treeAll_spec _ r).mp har v hv
      exact absurd (lt_trans h this) (lt_irrefl v)
  · exact fun hv => Or.inr (Or.inl hv)

theorem tmem_node_of_gt {v y : Int} {l r : Tree}
    (hb : isBST (.node l y r) = true) (h : y < v) :
    (tmem v (.node l y r) = true ↔ tmem v r = true) := by
  simp only [isBST, Bool.and_eq_true] at hb
  obtain ⟨⟨⟨hal, _⟩, _⟩, _⟩ := hb
  rw [tmem_node_iff]
  constructor
  · rintro (rfl | hv | hv)
    · exact absurd h (lt_irrefl v)
    · have : v < y := by simpa using (treeAll_spec _ l).mp hal v hv
      exact absurd (lt_trans h this) (lt_irrefl y)
    · exact hv
  · exact fun hv => Or.inr (Or.inr hv)

theorem DeleteNode_not_mem : ∀ (t : Tree) (v : Int), tmem v t = false →
    DeleteNode t v = t := by
  intro t
  induction t with
  | leaf => intro v _; rfl
  | node l y r ihl ihr =>
    intro v hv
    simp only [tmem, Bool.or_eq_false_iff, beq_eq_false_iff_ne] at hv
    obtain ⟨⟨hvy, hvl⟩, hvr⟩ := hv
    rcases lt_trichotomy v y with h | h | h
    · rw [DeleteNode_node_lt h, ihl v hvl]
    · exact absurd h hvy
    · rw [DeleteNode_node_gt h, ihr v hvr]

theorem tmem_DeleteNode : ∀ t : Tree, isBST t = true → ∀ v x : Int,
    (tmem x (DeleteNode t v) = true ↔ (tmem x t = true ∧ x ≠ v)) := by
  intro t
  induction t with
  | leaf => intro _ v x; simp [DeleteNode, tmem]
  | node l y r ihl ihr =>
    intro hb v x
    have hb0 := hb
    simp only [isBST, Bool.and_eq_true] at hb0
    obtain ⟨⟨⟨hal, har⟩, hbl⟩, hbr⟩ := hb0
    rcases lt_trichotomy v y with h | h | h
    · rw [DeleteNode_node_lt h, tmem_node_iff, tmem_node_iff, ihl hbl v x]
      constructor
      · rintro (rfl | hx | hx)
        · exact ⟨Or.inl rfl, by omega⟩
        · exact ⟨Or.inr (Or.inl hx.1), hx.2⟩
        · have hyx : y < x := by simpa using (treeAll_spec _ r).mp har x hx
          exact ⟨Or.inr (Or.inr hx), by omega⟩
      · rintro ⟨(rfl | hx | hx), hne⟩
        · exact Or.inl rfl
        · exact Or.inr (Or.inl ⟨hx, hne⟩)
        · exact Or.inr (Or.inr hx)
    · subst h
      by_cases hl : l = .leaf
      · subst hl
        rw [DeleteNode_node_self_left_leaf, tmem_node_iff]
        constructor
        · intro hx
          have hyx : v < x := by simpa using (treeAll_spec _ r).mp har x hx
          exact ⟨Or.inr (Or.inr hx), by omega⟩
        · rintro ⟨(rfl | hx | hx), hne⟩
          · exact absurd rfl hne
          · simp [tmem] at hx
          · exact hx
      · by_cases hr : r = .leaf
        · subst hr
          rw [DeleteNode_node_self_right_leaf hl, tmem_node_iff]
          constructor
          · intro hx
            have hxy : x < v := by simpa using (treeAll_spec _ l).mp hal x hx
            exact ⟨Or.inr (Or.inl hx), by omega⟩
          · rintro ⟨(rfl | hx | hx), hne⟩
            · exact absurd rfl hne
            · exact hx
            · simp [tmem] at hx
        · obtain ⟨m, hm⟩ := MinNode_some_of_ne_leaf r hr
          rw [DeleteNode_node_self_two hl hr v m hm, tmem_node_iff, tmem_node_iff,
            ihr hbr m x]
          have hmr : tmem m r = true := MinNode_mem r m hm
          have hym : v < m := by simpa using (treeAll_spec _ r).mp har m hmr
          constructor
          · rintro (rfl | hx | hx)
            · exact ⟨Or.inr (Or.inr hmr), by omega⟩
            · have hxy : x < v := by simpa using (treeAll_spec _ l).mp hal x hx
              exact ⟨Or.inr (Or.inl hx), by omega⟩
            · have hyx : v < x := by simpa using (treeAll_spec _ r).mp har x hx.1
              exact ⟨Or.inr (Or.inr hx.1), by omega⟩
          · rintro ⟨(rfl | hx | hx), hne⟩
            · exact absurd rfl hne
            · exact Or.inr (Or.inl hx)
            · by_cases hxm : x = m
              · exact Or.inl hxm
              · exact Or.inr (Or.inr ⟨hx, hxm⟩)
    · rw [DeleteNode_node_gt h, tmem_node_iff, tmem_node_iff, ihr hbr v x]
      constructor
      · rintro (rfl | hx | hx)
        · exact ⟨Or.inl rfl, by omega⟩
        · have hxy : x < y := by simpa using (treeAll_spec _ l).mp hal x hx
          exact ⟨Or.inr (Or.inl hx), by omega⟩
        · exact ⟨Or.inr (Or.inr hx.1), hx.2⟩
      · rintro ⟨(rfl | hx | hx), hne⟩
        · exact Or.inl rfl
        · exact Or.inr (Or.inl hx)
        · exact Or.inr (Or.inr ⟨hx, hne⟩)

theorem sizeT_DeleteNode : ∀ t : Tree, isBST t = true → ∀ v : Int,
    tmem v t = true → sizeT (DeleteNode t v) + 1 = sizeT t := by
  intro t
  induction t with
  | leaf => intro _ v hv; simp [tmem] at hv
  | node l y r ihl ihr =>
    intro hb v hv
    have hb0 := hb
    simp only [isBST, Bool.and_eq_true] at hb0
    obtain ⟨⟨⟨hal, har⟩, hbl⟩, hbr⟩ := hb0
    rcases lt_trichotomy v y with h | h | h
    · have hvl : tmem v l = true := (tmem_node_of_lt hb h).mp hv
      rw [DeleteNode_node_lt h]
      simp only [sizeT]
      have := ihl hbl v hvl
      omega
    · subst h
      by_cases hl : l = .leaf
      · subst hl; rw [DeleteNode_node_self_left_leaf]; simp [sizeT]
      · by_cases hr : r = .leaf
        · subst hr; rw [DeleteNode_node_self_right_leaf hl]; simp [sizeT]
        · obtain ⟨m, hm⟩ := MinNode_some_of_ne_leaf r hr
          rw [DeleteNode_node_self_two hl hr v m hm]
          simp only [sizeT]
          have := ihr hbr m (MinNode_mem r m hm)
          omega
    · have hvr : tmem v r = true := (tmem_node_of_gt hb h).mp hv
      rw [DeleteNode_node_gt h]
      simp only [sizeT]
      have := ihr hbr v hvr
      omega

theorem treeAll_DeleteNode (p : Int → Bool) : ∀ t : Tree, treeAll p t = true →
    ∀ v, treeAll p (DeleteNode t v) = true := by
  intro t
  induction t with
  | leaf => intro h v; simpa [DeleteNode] using h
  | node l y r ihl ihr =>
    intro ha v
    simp only [treeAll, Bool.and_eq_true] at ha
    obtain ⟨⟨hy, hl2⟩, hr2⟩ := ha
    rcases lt_trichotomy v y with h | h | h
    · rw [DeleteNode_node_lt h]
      simp only [treeAll, Bool.and_eq_true]
      exact ⟨⟨hy, ihl hl2 v⟩, hr2⟩
    · subst h
      by_cases hl : l = .leaf
      · subst hl; rw [DeleteNode_node_self_left_leaf]; exact hr2
      · by_cases hr : r = .leaf
        · subst hr; rw [DeleteNode_node_self_right_leaf hl]; exact hl2
        · obtain ⟨m, hm⟩ := MinNode_some_of_ne_leaf r hr
          rw [DeleteNode_node_self_two hl hr v m hm]
          simp only [treeAll, Bool.and_eq_true]
          have hpm : p m = true := (treeAll_spec p r).mp hr2 m (MinNode_mem r m hm)
          exact ⟨⟨hpm, hl2⟩, ihr hr2 m⟩
    · rw [DeleteNode_node_gt h]
      simp only [treeAll, Bool.and_eq_true]
      exact ⟨⟨hy, hl2⟩, ihr hr2 v⟩

theorem isBST_DeleteNode : ∀ t : Tree, isBST t = true → ∀ v : Int,
    isBST (DeleteNode t v) = true := by
  intro t
  induction t with
  | leaf => intro _ v; simp [DeleteNode, isBST]
  | node l y r ihl ihr =>
    intro hb v
    have hb0 := hb
    simp only [isBST, Bool.and_eq_true] at hb0
    obtain ⟨⟨⟨hal, har⟩, hbl⟩, hbr⟩ := hb0
    rcases lt_trichotomy v y with h | h | h
    · rw [DeleteNode_node_lt h]
      simp only [isBST, Bool.and_eq_true]
      exact ⟨⟨⟨treeAll_DeleteNode _ l hal v, har⟩, ihl hbl v⟩, hbr⟩
    · subst h
      by_cases hl : l = .leaf
      · subst hl; rw [DeleteNode_node_self_left_leaf]; exact hbr
      · by_cases hr : r = .leaf
        · subst hr; rw [DeleteNode_node_self_right_leaf hl]; exact hbl
        · obtain ⟨m, hm⟩ := MinNode_some_of_ne_leaf r hr
          rw [DeleteNode_node_self_two hl hr v m hm]
          simp only [isBST, Bool.and_eq_true]
          have hmr := MinNode_mem r m hm
          have hym : v < m := by simpa using (treeAll_spec _ r).mp har m hmr
          refine ⟨⟨⟨?_, ?_⟩, hbl⟩, ihr hbr m⟩
          · refine (treeAll_spec _ l).mpr (fun x hx => ?_)
            have hxv : x < v := by simpa using (treeAll_spec _ l).mp hal x hx
            simp only [decide_eq_true_eq]
            omega
          · refine (treeAll_spec _ _).mpr (fun x hx => ?_)
            have hx2 := (tmem_DeleteNode r hbr m x).mp hx
            have hmx : m ≤ x := MinNode_min r hbr m hm x hx2.1
            have hne := hx2.2
            simp only [decide_eq_true_eq]
            omega
    · rw [DeleteNode_node_gt h]
      simp only [isBST, Bool.and_eq_true]
      exact ⟨⟨⟨hal, treeAll_DeleteNode _ r har v⟩, hbl⟩, ihr hbr v⟩

example : buildTree [50, 30, 70, 20, 40] =
    .node (.node (.node .leaf 20 .leaf) 30 (.node .leaf 40 .leaf)) 50
      (.node .leaf 70 .leaf) := by decide

example : inorder (buildTree [50, 30, 70, 20, 40]) = [20, 30, 40, 50, 70] := by
  decide

example : DeleteNode (buildTree [50, 30, 70, 20, 40]) 30 =
    .node (.node (.node .leaf 20 .leaf) 40 .leaf) 50 (.node .leaf 70 .leaf) := by
  decide

example : travRun .TRAVERSING_IN (4 * sizeT (buildTree [2, 1, 3]))
    (startTravStack (buildTree [2, 1, 3])) = .ok [1, 2, 3] := rfl

example : travRun .TRAVERSING_POST (4 * sizeT (buildTree [2, 1, 3]))
    (startTravStack (buildTree [2, 1, 3])) = .ok [1, 3, 2] := rfl

example : AnimateNodesWalk (buildTree [2, 1, 3]) = .ok 3 := rfl

/-! Correctness of the idealized Traversal Engine on nonempty trees: with
the frame update performed safely (see the traversal section comment; the
allocation-aware model errors on the first reallocating push instead),
the machine reproduces the recursive visitation orders.  Each node costs
exactly four effective steps (its four phases), so `4 * sizeT t` steps
run any subtree to the point where its frame has been popped. -/

theorem exceptMap_map {ε α β γ : Type} (f : β → γ) (g : α → β) (x : Except ε α) :
    Except.map f (Except.map g x) = Except.map (fun a => f (g a)) x := by
  cases x <;> rfl

theorem travRun_succ_none {m : Mode} {st st2 : List TravFrame} {fuel : Nat}
    (hne : st ≠ []) (h : travStep m st = .ok (st2, none)) :
    travRun m (fuel + 1) st = travRun m fuel st2 := by
  simp [travRun, hne, h]

theorem travRun_succ_some {m : Mode} {st st2 : List TravFrame} {v : Int} {fuel : Nat}
    (hne : st ≠ []) (h : travStep m st = .ok (st2, some v)) :
    travRun m (fuel + 1) st = Except.map (fun vs => v :: vs) (travRun m fuel st2) := by
  simp [travRun, hne, h]

theorem travRun_in_go : ∀ t : Tree, t ≠ .leaf → ∀ (rest : List TravFrame) (fuel : Nat),
    travRun .TRAVERSING_IN (4 * sizeT t + fuel) (⟨t, 0⟩ :: rest) =
      Except.map (fun vs => inorder t ++ vs) (travRun .TRAVERSING_IN fuel rest) := by
  intro t
  induction t with
  | leaf => intro h; exact absurd rfl h
  | node l v r ihl ihr =>
    intro _ rest fuel
    have cont : travRun .TRAVERSING_IN (4 * sizeT r + fuel + 3)
        (⟨Tree.node l v r, 1⟩ :: rest) =
        Except.map (fun vs => v :: (inorder r ++ vs))
          (travRun .TRAVERSING_IN fuel rest) := by
      have h1 : travStep .TRAVERSING_IN (⟨Tree.node l v r, 1⟩ :: rest)
          = .ok (⟨Tree.node l v r, 2⟩ :: rest, some v) := by simp [travStep]
      rw [show 4 * sizeT r + fuel + 3 = (4 * sizeT r + fuel + 2) + 1 by omega]
      rw [travRun_succ_some (by simp) h1]
      by_cases hr : r = .leaf
      · have h2 : travStep .TRAVERSING_IN (⟨Tree.node l v r, 2⟩ :: rest)
            = .ok (⟨Tree.node l v r, 3⟩ :: rest, none) := by simp [travStep, hr]
        rw [show 4 * sizeT r + fuel + 2 = (4 * sizeT r + fuel + 1) + 1 by omega]
        rw [travRun_succ_none (by simp) h2]
        have h3 : travStep .TRAVERSING_IN (⟨Tree.node l v r, 3⟩ :: rest)
            = .ok (rest, none) := by simp [travStep]
        rw [show 4 * sizeT r + fuel + 1 = (4 * sizeT r + fuel) + 1 by omega]
        rw [travRun_succ_none (by simp) h3]
        rw [show 4 * sizeT r + fuel = fuel by simp [hr, sizeT]]
        cases travRun .TRAVERSING_IN fuel rest <;> simp [hr, inorder]
      · have h2 : travStep .TRAVERSING_IN (⟨Tree.node l v r, 2⟩ :: rest)
            = .ok (⟨r, 0⟩ :: ⟨Tree.node l v r, 3⟩ :: rest, none) := by
          simp [travStep, hr]
        rw [show 4 * sizeT r + fuel + 2 = (4 * sizeT r + fuel + 1) + 1 by omega]
        rw [travRun_succ_none (by simp) h2]
        rw [show 4 * sizeT r + fuel + 1 = 4 * sizeT r + (fuel + 1) by omega]
        rw [ihr hr (⟨Tree.node l v r, 3⟩ :: rest) (fuel + 1)]
        have h3 : travStep .TRAVERSING_IN (⟨Tree.node l v r, 3⟩ :: rest)
            = .ok (rest, none) := by simp [travStep]
        rw [travRun_succ_none (by simp) h3]
        cases travRun .TRAVERSING_IN fuel rest <;> simp [Except.map]
    by_cases hl : l = .leaf
    · have h0 : travStep .TRAVERSING_IN (⟨Tree.node l v r, 0⟩ :: rest)
          = .ok (⟨Tree.node l v r, 1⟩ :: rest, none) := by simp [travStep, hl]
      rw [show 4 * sizeT (Tree.node l v r) + fuel = (4 * sizeT r + fuel + 3) + 1 by
        simp [sizeT, hl]; omega]
      rw [travRun_succ_none (by simp) h0, cont]
      cases travRun .TRAVERSING_IN fuel rest <;> simp [hl, inorder, Except.map]
    · have h0 : travStep .TRAVERSING_IN (⟨Tree.node l v r, 0⟩ :: rest)
          = .ok (⟨l, 0⟩ :: ⟨Tree.node l v r, 1⟩ :: rest, none) := by
        simp [travStep, hl]
      rw [show 4 * sizeT (Tree.node l v r) + fuel
          = (4 * sizeT l + (4 * sizeT r + fuel + 3)) + 1 by simp [sizeT]; omega]
      rw [travRun_succ_none (by simp) h0]
      rw [ihl hl (⟨Tree.node l v r, 1⟩ :: rest) (4 * sizeT r + fuel + 3), cont]
      cases travRun .TRAVERSING_IN fuel rest <;>
        simp [inorder, Except.map, List.append_assoc]

theorem travRun_pre_go : ∀ t : Tree, t ≠ .leaf → ∀ (rest : List TravFrame) (fuel : Nat),
    travRun .TRAVERSING_PRE (4 * sizeT t + fuel) (⟨t, 0⟩ :: rest) =
      Except.map (fun vs => preorder t ++ vs) (travRun .TRAVERSING_PRE fuel rest) := by
  intro t
  induction t with
  | leaf => intro h; exact absurd rfl h
  | node l v r ihl ihr =>
    intro _ rest fuel
    have cont : travRun .TRAVERSING_PRE (4 * sizeT r + fuel + 2)
        (⟨Tree.node l v r, 2⟩ :: rest) =
        Except.map (fun vs => preorder r ++ vs)
          (travRun .TRAVERSING_PRE (fuel + 1) (⟨Tree.node l v r, 3⟩ :: rest)) := by
      by_cases hr : r = .leaf
      · have h2 : travStep .TRAVERSING_PRE (⟨Tree.node l v r, 2⟩ :: rest)
            = .ok (⟨Tree.node l v r, 3⟩ :: rest, none) := by simp [travStep, hr]
        rw [show 4 * sizeT r + fuel + 2 = ((fuel + 1)) + 1 by simp [hr, sizeT]]
        rw [travRun_succ_none (by simp) h2]
        cases travRun .TRAVERSING_PRE (fuel + 1) (⟨Tree.node l v r, 3⟩ :: rest) <;>
          simp [hr, preorder, Except.map]
      · have h2 : travStep .TRAVERSING_PRE (⟨Tree.node l v r, 2⟩ :: rest)
            = .ok (⟨r, 0⟩ :: ⟨Tree.node l v r, 3⟩ :: rest, none) := by
          simp [travStep, hr]
        rw [show 4 * sizeT r + fuel + 2 = (4 * sizeT r + (fuel + 1)) + 1 by omega]
        rw [travRun_succ_none (by simp) h2]
        rw [ihr hr (⟨Tree.node l v r, 3⟩ :: rest) (fuel + 1)]
    have pop : travRun .TRAVERSING_PRE (fuel + 1) (⟨Tree.node l v r, 3⟩ :: rest)
        = travRun .TRAVERSING_PRE fuel rest := by
      have h3 : travStep .TRAVERSING_PRE (⟨Tree.node l v r, 3⟩ :: rest)
          = .ok (rest, none) := by simp [travStep]
      rw [travRun_succ_none (by simp) h3]
    have h0 : travStep .TRAVERSING_PRE (⟨Tree.node l v r, 0⟩ :: rest)
        = .ok (⟨Tree.node l v r, 1⟩ :: rest, some v) := by simp [travStep]
    rw [show 4 * sizeT (Tree.node l v r) + fuel
        = (4 * sizeT l + (4 * sizeT r + fuel + 2)) + 1 + 1 by simp [sizeT]; omega]
    rw [travRun_succ_some (by simp) h0]
    by_cases hl : l = .leaf
    · have h1 : travStep .TRAVERSING_PRE (⟨Tree.node l v r, 1⟩ :: rest)
          = .ok (⟨Tree.node l v r, 2⟩ :: rest, none) := by simp [travStep, hl]
      rw [travRun_succ_none (by simp) h1]
      rw [show 4 * sizeT l + (4 * sizeT r + fuel + 2) = 4 * sizeT r + fuel + 2 by
        simp [hl, sizeT]]
      rw [cont, pop]
      cases travRun .TRAVERSING_PRE fuel rest <;>
        simp [hl, preorder, Except.map, List.append_assoc]
    · have h1 : travStep .TRAVERSING_PRE (⟨Tree.node l v r, 1⟩ :: rest)
          = .ok (⟨l, 0⟩ :: ⟨Tree.node l v r, 2⟩ :: rest, none) := by
        simp [travStep, hl]
      rw [travRun_succ_none (by simp) h1]
      rw [ihl hl (⟨Tree.node l v r, 2⟩ :: rest) (4 * sizeT r + fuel + 2), cont, pop]
      cases travRun .TRAVERSING_PRE fuel rest <;>
        simp [preorder, Except.map, List.append_assoc]

theorem travRun_post_go : ∀ t : Tree, t ≠ .leaf → ∀ (rest : List TravFrame) (fuel : Nat),
    travRun .TRAVERSING_POST (4 * sizeT t + fuel) (⟨t, 0⟩ :: rest) =
      Except.map (fun vs => postorder t ++ vs) (travRun .TRAVERSING_POST fuel rest) := by
  intro t
  induction t with
  | leaf => intro h; exact absurd rfl h
  | node l v r ihl ihr =>
    intro _ rest fuel
    have tail : travRun .TRAVERSING_POST (fuel + 1 + 1) (⟨Tree.node l v r, 2⟩ :: rest)
        = Except.map (fun vs => v :: vs) (travRun .TRAVERSING_POST fuel rest) := by
      have h2 : travStep .TRAVERSING_POST (⟨Tree.node l v r, 2⟩ :: rest)
          = .ok (⟨Tree.node l v r, 3⟩ :: rest, some v) := by simp [travStep]
      rw [travRun_succ_some (by simp) h2]
      have h3 : travStep .TRAVERSING_POST (⟨Tree.node l v r, 3⟩ :: rest)
          = .ok (rest, none) := by simp [travStep]
      rw [travRun_succ_none (by simp) h3]
    have cont : travRun .TRAVERSING_POST (4 * sizeT r + (fuel + 1 + 1) + 1)
        (⟨Tree.node l v r, 1⟩ :: rest) =
        Except.map (fun vs => postorder r ++ (v :: vs))
          (travRun .TRAVERSING_POST fuel rest) := by
      by_cases hr : r = .leaf
      · have h1 : travStep .TRAVERSING_POST (⟨Tree.node l v r, 1⟩ :: rest)
            = .ok (⟨Tree.node l v r, 2⟩ :: rest, none) := by simp [travStep, hr]
        rw [show 4 * sizeT r + (fuel + 1 + 1) + 1 = (fuel + 1 + 1) + 1 by
          simp [hr, sizeT]]
        rw [travRun_succ_none (by simp) h1, tail]
        cases travRun .TRAVERSING_POST fuel rest <;>
          simp [hr, postorder, Except.map]
      · have h1 : travStep .TRAVERSING_POST (⟨Tree.node l v r, 1⟩ :: rest)
            = .ok (⟨r, 0⟩ :: ⟨Tree.node l v r, 2⟩ :: rest, none) := by
          simp [travStep, hr]
        rw [show 4 * sizeT r + (fuel + 1 + 1) + 1 = (4 * sizeT r + (fuel + 1 + 1)) + 1
          by omega]
        rw [travRun_succ_none (by simp) h1]
        rw [ihr hr (⟨Tree.node l v r, 2⟩ :: rest) (fuel + 1 + 1), tail]
        cases travRun .TRAVERSING_POST fuel rest <;> simp [Except.map]
    by_cases hl : l = .leaf
    · have h0 : travStep .TRAVERSING_POST (⟨Tree.node l v r, 0⟩ :: rest)
          = .ok (⟨Tree.node l v r, 1⟩ :: rest, none) := by simp [travStep, hl]
      rw [show 4 * sizeT (Tree.node l v r) + fuel
          = (4 * sizeT r + (fuel + 1 + 1) + 1) + 1 by simp [sizeT, hl]; omega]
      rw [travRun_succ_none (by simp) h0, cont]
      cases travRun .TRAVERSING_POST fuel rest <;>
        simp [hl, postorder, Except.map]
    · have h0 : travStep .TRAVERSING_POST (⟨Tree.node l v r, 0⟩ :: rest)
          = .ok (⟨l, 0⟩ :: ⟨Tree.node l v r, 1⟩ :: rest, none) := by
        simp [travStep, hl]
      rw [show 4 * sizeT (Tree.node l v r) + fuel
          = (4 * sizeT l + (4 * sizeT r + (fuel + 1 + 1) + 1)) + 1 by
          simp [sizeT]; omega]
      rw [travRun_succ_none (by simp) h0]
      rw [ihl hl (⟨Tree.node l v r, 1⟩ :: rest) (4 * sizeT r + (fuel + 1 + 1) + 1),
        cont]
      cases travRun .TRAVERSING_POST fuel rest <;>
        simp [postorder, Except.map, List.append_assoc]

/-- For every nonempty tree the idealized Traversal Engine run visits
exactly the recursive in-order sequence. -/
theorem travRun_inorder (t : Tree) (h : t ≠ .leaf) :
    travRun .TRAVERSING_IN (4 * sizeT t) (startTravStack t) = .ok (inorder t) := by
  have h2 := travRun_in_go t h [] 0
  rw [Nat.add_zero] at h2
  simpa [startTravStack, travRun, Except.map] using h2

/-- For every nonempty tree the idealized Traversal Engine run visits
exactly the recursive pre-order sequence. -/
theorem travRun_preorder (t : Tree) (h : t ≠ .leaf) :
    travRun .TRAVERSING_PRE (4 * sizeT t) (startTravStack t) = .ok (preorder t) := by
  have h2 := travRun_pre_go t h [] 0
  rw [Nat.add_zero] at h2
  simpa [startTravStack, travRun, Except.map] using h2

/-- For every nonempty tree the idealized Traversal Engine run visits
exactly the recursive post-order sequence. -/
theorem travRun_postorder (t : Tree) (h : t ≠ .leaf) :
    travRun .TRAVERSING_POST (4 * sizeT t) (startTravStack t) = .ok (postorder t) := by
  have h2 := travRun_post_go t h [] 0
  rw [Nat.add_zero] at h2
  simpa [startTravStack, travRun, Except.map] using h2

/-! Bounds for the fixed-capacity helper-stack walk. -/

theorem one_le_sizeT : ∀ u : Tree, u ≠ .leaf → 1 ≤ sizeT u := by
  intro u h
  cases u with
  | leaf => exact absurd rfl h
  | node l v r => simp [sizeT]

theorem sumS_nil : sumS [] = 0 := rfl

theorem sumS_cons (t : Tree) (st : List Tree) :
    sumS (t :: st) = sizeT t + sumS st := by
  simp [sumS]

theorem length_le_sumS : ∀ st : List Tree, (∀ u ∈ st, u ≠ .leaf) →
    st.length ≤ sumS st := by
  intro st
  induction st with
  | nil => intro _; simp [sumS_nil]
  | cons t rest ih =>
    intro h
    have h1 : 1 ≤ sizeT t := one_le_sizeT t (h t (by simp))
    have h2 := ih (fun u hu => h u (by simp [hu]))
    rw [sumS_cons]
    simp only [List.length_cons]
    omega

theorem fullWalkAux_ok : ∀ (fuel : Nat) (st : List Tree),
    (∀ u ∈ st, u ≠ Tree.leaf) → sumS st ≤ 100 → sumS st < fuel →
    fullWalkAux fuel st = .ok (sumS st) := by
  intro fuel
  induction fuel with
  | zero => intro st _ _ hf; exact absurd hf (Nat.not_lt_zero _)
  | succ fuel ih =>
    intro st hne hcap hf
    cases st with
    | nil => simp [fullWalkAux, sumS_nil]
    | cons t rest =>
      have hte : t ≠ Tree.leaf := hne t (by simp)
      cases t with
      | leaf => exact absurd rfl hte
      | node l v r =>
        have hrest : ∀ u ∈ rest, u ≠ Tree.leaf := fun u hu => hne u (by simp [hu])
        have hlen : rest.length ≤ sumS rest := length_le_sumS rest hrest
        rw [sumS_cons] at hcap hf ⊢
        simp only [sizeT] at hcap hf ⊢
        by_cases hl : l = .leaf <;> by_cases hr : r = .leaf
        · have hst2 := ih rest hrest (by omega) (by omega)
          subst hl; subst hr
          simp only [sizeT, Nat.zero_add] at hst2 hcap hf ⊢
          simp [fullWalkAux, hst2, Bind.bind, Except.bind, Functor.map, Except.map, pure, Except.pure]
          omega
        · have hsr : 1 ≤ sizeT r := one_le_sizeT r hr
          have hp : pushFixed r rest = .ok (r :: rest) := by
            rw [pushFixed, if_pos (by omega)]
          have hst2 := ih (r :: rest) (by
              intro u hu
              rcases List.mem_cons.mp hu with rfl | hu
              · exact hr
              · exact hrest u hu)
            (by rw [sumS_cons]; omega) (by rw [sumS_cons]; omega)
          rw [sumS_cons] at hst2
          subst hl
          simp only [sizeT, Nat.zero_add] at hst2 hcap hf ⊢
          simp [fullWalkAux, hp, hst2, hr, Bind.bind, Except.bind, Functor.map, Except.map, pure, Except.pure]
          omega
        · have hsl : 1 ≤ sizeT l := one_le_sizeT l hl
          have hp : pushFixed l rest = .ok (l :: rest) := by
            rw [pushFixed, if_pos (by omega)]
          have hst2 := ih (l :: rest) (by
              intro u hu
              rcases List.mem_cons.mp hu with rfl | hu
              · exact hl
              · exact hrest u hu)
            (by rw [sumS_cons]; omega) (by rw [sumS_cons]; omega)
          rw [sumS_cons] at hst2
          subst hr
          simp only [sizeT, Nat.add_zero] at hst2 hcap hf ⊢
          simp [fullWalkAux, hp, hst2, hl, Bind.bind, Except.bind, Functor.map, Except.map, pure, Except.pure]
          omega
        · have hsl : 1 ≤ sizeT l := one_le_sizeT l hl
          have hsr : 1 ≤ sizeT r := one_le_sizeT r hr
          have hp1 : pushFixed l rest = .ok (l :: rest) := by
            rw [pushFixed, if_pos (by omega)]
          have hp2 : pushFixed r (l :: rest) = .ok (r :: l :: rest) := by
            rw [pushFixed, if_pos (by simp only [List.length_cons]; omega)]
          have hst2 := ih (r :: l :: rest) (by
              intro u hu
              rcases List.mem_cons.mp hu with rfl | hu
              · exact hr
              · rcases List.mem_cons.mp hu with rfl | hu
                · exact hl
                · exact hrest u hu)
            (by rw [sumS_cons, sumS_cons]; omega)
            (by rw [sumS_cons, sumS_cons]; omega)
          rw [sumS_cons, sumS_cons] at hst2
          simp [fullWalkAux, hp1, hp2, hst2, hl, hr, Bind.bind, Except.bind, Functor.map, Except.map, pure, Except.pure]
          omega

/-- C9 amended: the full-tree helper walk of `AnimateNodes` (and the
identically structured `ResetTreeColors` walk) visits every live node with
all stack accesses in bounds whenever the tree is small enough that the
100-slot stack never overflows — in particular for every tree of at most
100 nodes; the fixed capacity is exceeded by larger trees that stack more
than 100 pending nodes (see the counterexample). -/
theorem animate_walk_inbounds (t : Tree) (h : sizeT t ≤ 100) :
    AnimateNodesWalk t = .ok (sizeT t) := by
  by_cases hleaf : t = .leaf
  · subst hleaf; simp [AnimateNodesWalk, sizeT]
  · rw [AnimateNodesWalk, if_neg hleaf]
    have hrun := fullWalkAux_ok (sizeT t + 1) [t]
      (by intro u hu; simp at hu; subst hu; exact hleaf)
      (by rw [sumS_cons, sumS_nil]; omega)
      (by rw [sumS_cons, sumS_nil]; omega)
    rw [sumS_cons, sumS_nil] at hrun
    simpa using hrun

/-- Witness for C9 at the five-node spec example tree. -/
theorem animate_walk_inbounds_witness :
    sizeT (buildTree [50, 30, 70, 20, 40]) ≤ 100 ∧
    AnimateNodesWalk (buildTree [50, 30, 70, 20, 40]) =
      .ok (sizeT (buildTree [50, 30, 70, 20, 40])) :=
  ⟨by decide, animate_walk_inbounds (buildTree [50, 30, 70, 20, 40]) (by decide)⟩

/-- C9 counterexample: the 202-node BST built by inserting
2, 1, 4, 3, 6, 5, … (a right spine of 101 nodes, each with a left leaf
child) drives the helper stack past its 100 slots: the walk hits the
out-of-bounds write `stack[top++]` with `top = 100` (modelled as
`Except.error true`), refuting in-bounds accesses for arbitrary tree
shapes and depths. -/
theorem animate_walk_overflow :
    sizeT (buildTree overflowList) = 202 ∧
    AnimateNodesWalk (buildTree overflowList) = .error true :=
  ⟨by decide, rfl⟩

/-! Per-tick facts and the run invariant of the Delete State Machine.
The master lemma walks the branch structure of `UpdateDelete` once and
yields, for every (`DelInv`-satisfying) state: invariant preservation,
monotonicity of the phase index, root preservation outside the
Fade/Commit phases, and the 0.12 s gate for flash toggles. -/

theorem delTick_master (s : DelState) (e : DelEvent) (h : DelInv s) :
    DelInv (delTick s e) ∧
    s.algoStep ≤ (delTick s e).algoStep ∧
    ((delTick s e).root = s.root ∨ s.algoStep = 3 ∨ s.algoStep = 4) ∧
    ((delTick s e).delFlashCount = s.delFlashCount ∨ s.delFlashTimer + e.dt > 12) := by
  obtain ⟨h1, h2, h3, h4⟩ := h
  unfold delTick updateDelete
  by_cases hm : s.mode = Mode.DELETING
  case neg =>
    rw [if_neg hm]
    exact ⟨⟨h1, h2, h3, h4⟩, le_refl _, Or.inl rfl, Or.inl rfl⟩
  case pos =>
    rw [if_pos hm]
    by_cases hdn : s.delNode = none
    · rw [if_pos hdn]
      exact ⟨⟨h1, h2, h3, h4⟩, le_refl _, Or.inl rfl, Or.inl rfl⟩
    · rw [if_neg hdn]
      by_cases hb : s.algoTimer + e.dt > 50 ∧ s.algoStep < 4
      · rw [if_pos hb]
        by_cases e1 : s.algoStep + 1 = 1
        · rw [if_pos e1]
          have hc0 : s.delFlashCount = 0 := h3 (by omega)
          by_cases hft : s.delFlashTimer + e.dt > 12
          · rw [if_pos hft]
            rw [if_neg (by omega : ¬ s.delFlashCount + 1 > 6)]
            refine ⟨⟨?_, ?_, fun hh => ?_, fun hh => ?_⟩, ?_, Or.inl rfl, Or.inr hft⟩ <;>
              (try simp only [] at hh) <;> (try simp only []) <;> omega
          · rw [if_neg hft]
            rw [if_neg (by omega : ¬ s.delFlashCount > 6)]
            refine ⟨⟨?_, ?_, fun hh => ?_, fun hh => ?_⟩, ?_, Or.inl rfl, Or.inl rfl⟩ <;>
              (try simp only [] at hh) <;> (try simp only []) <;> omega
        · rw [if_neg e1]
          by_cases e2 : s.algoStep + 1 = 2
          · rw [if_pos e2]
            by_cases hy : s.delY + e.dt * 3 > 900
            · rw [if_pos hy]
              refine ⟨⟨?_, ?_, fun hh => ?_, fun hh => ?_⟩, ?_, Or.inl rfl, Or.inl rfl⟩ <;>
                (try simp only [] at hh) <;> (try simp only []) <;> omega
            · rw [if_neg hy]
              refine ⟨⟨?_, ?_, fun hh => ?_, fun hh => ?_⟩, ?_, Or.inl rfl, Or.inl rfl⟩ <;>
                (try simp only [] at hh) <;> (try simp only []) <;> omega
          · rw [if_neg e2]
            by_cases e3 : s.algoStep + 1 = 3
            · rw [if_pos e3]
              by_cases ha : s.delAlpha - e.dt * 3 ≤ 0
              · rw [if_pos ha]
                refine ⟨⟨?_, ?_, fun hh => ?_, fun hh => ?_⟩, ?_, Or.inl rfl, Or.inl rfl⟩ <;>
                  (try simp only [] at hh) <;> (try simp only []) <;> omega
              · rw [if_neg ha]
                refine ⟨⟨?_, ?_, fun hh => ?_, fun hh => ?_⟩, ?_, Or.inl rfl, Or.inl rfl⟩ <;>
                  (try simp only [] at hh) <;> (try simp only []) <;> omega
            · rw [if_neg e3]
              by_cases e4 : s.algoStep + 1 = 4
              · rw [if_pos e4]
                refine ⟨⟨?_, ?_, fun hh => ?_, fun hh => ?_⟩, ?_, Or.inr (Or.inl (by omega)), Or.inl rfl⟩ <;>
                  (try simp only [] at hh) <;> (try simp only []) <;> omega
              · rw [if_neg e4]
                refine ⟨⟨?_, ?_, fun hh => ?_, fun hh => ?_⟩, ?_, Or.inl rfl, Or.inl rfl⟩ <;>
                  (try simp only [] at hh) <;> (try simp only []) <;> omega
      · rw [if_neg hb]
        by_cases f1 : s.algoStep = 1
        · rw [if_pos f1]
          have hc6 : s.delFlashCount ≤ 6 := h4 f1
          by_cases hft : s.delFlashTimer + e.dt > 12
          · rw [if_pos hft]
            by_cases g6 : s.delFlashCount + 1 > 6
            · rw [if_pos g6]
              refine ⟨⟨?_, ?_, fun hh => ?_, fun hh => ?_⟩, ?_, Or.inl rfl, Or.inr hft⟩ <;>
                (try simp only [] at hh) <;> (try simp only []) <;> omega
            · rw [if_neg g6]
              refine ⟨⟨?_, ?_, fun hh => ?_, fun hh => ?_⟩, ?_, Or.inl rfl, Or.inr hft⟩ <;>
                (try simp only [] at hh) <;> (try simp only []) <;> omega
          · rw [if_neg hft]
            by_cases g6 : s.delFlashCount > 6
            · rw [if_pos g6]
              refine ⟨⟨?_, ?_, fun hh => ?_, fun hh => ?_⟩, ?_, Or.inl rfl, Or.inl rfl⟩ <;>
                (try simp only [] at hh) <;> (try simp only []) <;> omega
            · rw [if_neg g6]
              refine ⟨⟨?_, ?_, fun hh => ?_, fun hh => ?_⟩, ?_, Or.inl rfl, Or.inl rfl⟩ <;>
                (try simp only [] at hh) <;> (try simp only []) <;> omega
        · rw [if_neg f1]
          by_cases f2 : s.algoStep = 2
          · rw [if_pos f2]
            by_cases hy : s.delY + e.dt * 3 > 900
            · rw [if_pos hy]
              refine ⟨⟨?_, ?_, fun hh => ?_, fun hh => ?_⟩, ?_, Or.inl rfl, Or.inl rfl⟩ <;>
                (try simp only [] at hh) <;> (try simp only []) <;> omega
            · rw [if_neg hy]
              refine ⟨⟨?_, ?_, fun hh => ?_, fun hh => ?_⟩, ?_, Or.inl rfl, Or.inl rfl⟩ <;>
                (try simp only [] at hh) <;> (try simp only []) <;> omega
          · rw [if_neg f2]
            by_cases f3 : s.algoStep = 3
            · rw [if_pos f3]
              by_cases ha : s.delAlpha - e.dt * 3 ≤ 0
              · rw [if_pos ha]
                refine ⟨⟨?_, ?_, fun hh => ?_, fun hh => ?_⟩, ?_, Or.inl rfl, Or.inl rfl⟩ <;>
                  (try simp only [] at hh) <;> (try simp only []) <;> omega
              · rw [if_neg ha]
                refine ⟨⟨?_, ?_, fun hh => ?_, fun hh => ?_⟩, ?_, Or.inl rfl, Or.inl rfl⟩ <;>
                  (try simp only [] at hh) <;> (try simp only []) <;> omega
            · rw [if_neg f3]
              by_cases f4 : s.algoStep = 4
              · rw [if_pos f4]
                refine ⟨⟨?_, ?_, fun hh => ?_, fun hh => ?_⟩, ?_, Or.inr (Or.inr f4), Or.inl rfl⟩ <;>
                  (try simp only [] at hh) <;> (try simp only []) <;> omega
              · rw [if_neg f4]
                exact ⟨⟨h1, h2, h3, h4⟩, le_refl _, Or.inl rfl, Or.inl rfl⟩

theorem delInv_start (t : Tree) (v0 : Int) (y0 a0 : Int) (c0 : Bool) :
    DelInv (startDelete t v0 y0 a0 c0) := by
  refine ⟨?_, ?_, ?_, ?_⟩ <;> simp [startDelete, DelInv]

theorem delInv_run (evs : List DelEvent) : ∀ s : DelState, DelInv s →
    DelInv (runDelete s evs) := by
  induction evs with
  | nil => intro s h; exact h
  | cons e evs ih =>
    intro s h
    exact ih (delTick s e) (delTick_master s e h).1

/-- C4 amended: along every run of the Delete State Machine the phase
index stays within 0..4 and never decreases (so Locate, Flash, Drop, Fade,
Commit are passed in order and never revisited), at most 7 flash toggles
ever happen and a toggle fires only once 0.12 s (12 hundredths) have
accumulated on the flash timer, and the structural deletion can only
happen from the Fade or Commit phase — never during Locate, Flash or
Drop.  (The original claim that each phase is gated solely by its own
condition fails: the 0.5 s panel pacing timer shares `algoStepIndex` with
the phase index and can cut Flash and Drop short — see the
counterexample.) -/
theorem delete_phases_amended (t : Tree) (v0 : Int) (y0 a0 : Int) (c0 : Bool)
    (evs : List DelEvent) (e : DelEvent) :
    let s := runDelete (startDelete t v0 y0 a0 c0) evs
    s.algoStep ≤ 4 ∧ s.delFlashCount ≤ 7 ∧
    s.algoStep ≤ (delTick s e).algoStep ∧
    ((delTick s e).root = s.root ∨ s.algoStep = 3 ∨ s.algoStep = 4) ∧
    ((delTick s e).delFlashCount = s.delFlashCount ∨ s.delFlashTimer + e.dt > 12) := by
  intro s
  have hinv := delInv_run evs (startDelete t v0 y0 a0 c0) (delInv_start t v0 y0 a0 c0)
  have hm := delTick_master (runDelete (startDelete t v0 y0 a0 c0) evs) e hinv
  exact ⟨hinv.1, hinv.2.1, hm.2.1, hm.2.2.1, hm.2.2.2⟩

/-- C4 counterexample: deleting 30 from the tree built from 50, 30, 70
(target node at y = 80, opacity 1) with six 0.3 s frames leaves the
machine mid-animation in the Fade phase (index 3, opacity already down to
0.10) although only 2 of the 7 flash toggles have happened and the node
y (260) never passed the 900 below-screen threshold: Flash did not
perform 7 toggles before Drop began, and Drop did not reach the threshold
before Fade began — the 0.5 s pacing timer advanced the shared phase
index instead. -/
theorem delete_phases_counterexample :
    ((runDelete (startDelete (buildTree [50, 30, 70]) 30 80 100 false)
        (List.replicate 6 ⟨false, false, 30⟩))).mode = Mode.DELETING ∧
    ((runDelete (startDelete (buildTree [50, 30, 70]) 30 80 100 false)
        (List.replicate 6 ⟨false, false, 30⟩))).algoStep = 3 ∧
    ((runDelete (startDelete (buildTree [50, 30, 70]) 30 80 100 false)
        (List.replicate 6 ⟨false, false, 30⟩))).delFlashCount = 2 ∧
    ((runDelete (startDelete (buildTree [50, 30, 70]) 30 80 100 false)
        (List.replicate 6 ⟨false, false, 30⟩))).delY = 260 ∧
    ((runDelete (startDelete (buildTree [50, 30, 70]) 30 80 100 false)
        (List.replicate 6 ⟨false, false, 30⟩))).delAlpha = 10 := by
  exact ⟨by decide, by decide, by decide, by decide, by decide⟩

/-- C10: the Commit branch of `UpdateDelete` deletes by the value of
`inputValue` as it stands on the commit frame (after that frame's arrow-key
handling), not by the key of the node located and animated since the
Locate phase: from any DELETING state in phase 4 with a located node, the
tick sets `root = DeleteNode root input`, with `input` the key-adjusted
input of this very frame. -/
theorem commit_uses_commit_time_input (s : DelState) (e : DelEvent) (dv : Int)
    (h1 : s.mode = .DELETING) (h2 : s.delNode = some dv) (h3 : s.algoStep = 4) :
    (delTick s e).root = DeleteNode s.root
        (s.input + (if e.up then 1 else 0) - (if e.down then 1 else 0)) ∧
    (delTick s e).input =
        s.input + (if e.up then 1 else 0) - (if e.down then 1 else 0) ∧
    (delTick s e).mode = .IDLE := by
  have hdn : s.delNode ≠ none := by simp [h2]
  unfold delTick updateDelete
  rw [if_pos h1, if_neg hdn]
  rw [if_neg (by simp [h3] : ¬ (s.algoTimer + e.dt > 50 ∧ s.algoStep < 4))]
  rw [if_neg (by omega : ¬ s.algoStep = 1), if_neg (by omega : ¬ s.algoStep = 2),
    if_neg (by omega : ¬ s.algoStep = 3), if_pos h3]
  exact ⟨rfl, rfl, rfl⟩

/-- Witness for C10: start deleting 30 from the tree built from 50, 30, 70;
press UP once during the animation (input becomes 31); at the commit frame
the machine is in phase 4 with the located node still keyed 30, and the
commit deletes by 31 — which is absent — so the tree keeps the very node
that was flashed, dropped and faded, and loses nothing. -/
theorem commit_uses_commit_time_input_witness :
    ((runDelete (startDelete (buildTree [50, 30, 70]) 30 80 100 false)
      (⟨true, false, 30⟩ :: List.replicate 6 ⟨false, false, 30⟩))).mode = Mode.DELETING ∧
    ((runDelete (startDelete (buildTree [50, 30, 70]) 30 80 100 false)
      (⟨true, false, 30⟩ :: List.replicate 6 ⟨false, false, 30⟩))).delNode = some 30 ∧
    ((runDelete (startDelete (buildTree [50, 30, 70]) 30 80 100 false)
      (⟨true, false, 30⟩ :: List.replicate 6 ⟨false, false, 30⟩))).algoStep = 4 ∧
    ((runDelete (startDelete (buildTree [50, 30, 70]) 30 80 100 false)
      (⟨true, false, 30⟩ :: List.replicate 6 ⟨false, false, 30⟩))).input = 31 ∧
    ((runDelete (startDelete (buildTree [50, 30, 70]) 30 80 100 false)
      (⟨true, false, 30⟩ :: List.replicate 6 ⟨false, false, 30⟩))).root = buildTree [50, 30, 70] ∧
    ((delTick ((runDelete (startDelete (buildTree [50, 30, 70]) 30 80 100 false)
      (⟨true, false, 30⟩ :: List.replicate 6 ⟨false, false, 30⟩))) ⟨false, false, 30⟩).root =
        DeleteNode ((runDelete (startDelete (buildTree [50, 30, 70]) 30 80 100 false)
      (⟨true, false, 30⟩ :: List.replicate 6 ⟨false, false, 30⟩))).root
          (((runDelete (startDelete (buildTree [50, 30, 70]) 30 80 100 false)
      (⟨true, false, 30⟩ :: List.replicate 6 ⟨false, false, 30⟩))).input + (if (false : Bool) then 1 else 0)
            - (if (false : Bool) then 1 else 0)) ∧
      (delTick ((runDelete (startDelete (buildTree [50, 30, 70]) 30 80 100 false)
      (⟨true, false, 30⟩ :: List.replicate 6 ⟨false, false, 30⟩))) ⟨false, false, 30⟩).input =
        ((runDelete (startDelete (buildTree [50, 30, 70]) 30 80 100 false)
      (⟨true, false, 30⟩ :: List.replicate 6 ⟨false, false, 30⟩))).input + (if (false : Bool) then 1 else 0)
          - (if (false : Bool) then 1 else 0) ∧
      (delTick ((runDelete (startDelete (buildTree [50, 30, 70]) 30 80 100 false)
      (⟨true, false, 30⟩ :: List.replicate 6 ⟨false, false, 30⟩))) ⟨false, false, 30⟩).mode = Mode.IDLE) ∧
    (delTick ((runDelete (startDelete (buildTree [50, 30, 70]) 30 80 100 false)
      (⟨true, false, 30⟩ :: List.replicate 6 ⟨false, false, 30⟩))) ⟨false, false, 30⟩).root = buildTree [50, 30, 70] ∧
    tmem 30 (delTick ((runDelete (startDelete (buildTree [50, 30, 70]) 30 80 100 false)
      (⟨true, false, 30⟩ :: List.replicate 6 ⟨false, false, 30⟩))) ⟨false, false, 30⟩).root = true ∧
    tmem 31 (buildTree [50, 30, 70]) = false :=
  ⟨by decide, by decide, by decide, by decide, by decide,
    commit_uses_commit_time_input
      ((runDelete (startDelete (buildTree [50, 30, 70]) 30 80 100 false)
      (⟨true, false, 30⟩ :: List.replicate 6 ⟨false, false, 30⟩))) ⟨false, false, 30⟩ 30 (by decide) (by decide) (by decide),
    by decide, by decide, by decide⟩

/-! Further helper lemmas for the claim theorems. -/

theorem Insert_of_mem : ∀ t : Tree, isBST t = true → ∀ v : Int,
    tmem v t = true → Insert t v = t := by
  intro t
  induction t with
  | leaf => intro _ v hv; simp [tmem] at hv
  | node l x r ihl ihr =>
    intro hb v hv
    have hb0 := hb
    simp only [isBST, Bool.and_eq_true] at hb0
    obtain ⟨⟨⟨hal, har⟩, hbl⟩, hbr⟩ := hb0
    rcases lt_trichotomy v x with h | h | h
    · have hvl := (tmem_node_of_lt hb h).mp hv
      simp only [Insert, if_pos h]
      rw [ihl hbl v hvl]
    · subst h; simp [Insert, lt_irrefl]
    · have hvr := (tmem_node_of_gt hb h).mp hv
      simp only [Insert, if_neg (asymm h), if_pos h]
      rw [ihr hbr v hvr]

theorem locate_not_mem : ∀ (t : Tree) (v : Int), tmem v t = false →
    locate t v = none := by
  intro t
  induction t with
  | leaf => intro v _; rfl
  | node l x r ihl ihr =>
    intro v hv
    simp only [tmem, Bool.or_eq_false_iff, beq_eq_false_iff_ne] at hv
    obtain ⟨⟨hvx, hvl⟩, hvr⟩ := hv
    simp only [locate]
    rw [if_neg (fun hh => hvx hh.symm)]
    by_cases h : v < x
    · rw [if_pos h]; exact ihl v hvl
    · rw [if_neg h]; exact ihr v hvr

/-! The claim theorems (with their counterexamples and witnesses). -/

/-- C1 (code evidence): starting a traversal on the empty tree pushes a
frame holding the null root pointer, and the first effective
`UpdateTraversal` step then dereferences that null pointer (modelled as an
error; undefined behavior in the C++), for each of the three traversal
kinds — instead of completing with the empty visit sequence of the
recursive traversal.  (The null dereference happens before any push, so
it is unaffected by the vector-reallocation issue of C6; on every
nonempty tree the idealized machine reproduces the recursive orders:
`travRun_inorder`, `travRun_preorder`, `travRun_postorder`.) -/
theorem traversal_empty_tree_crash :
    travStep .TRAVERSING_IN (startTravStack .leaf) = .error () ∧
    travStep .TRAVERSING_PRE (startTravStack .leaf) = .error () ∧
    travStep .TRAVERSING_POST (startTravStack .leaf) = .error () ∧
    travRun .TRAVERSING_IN 1 (startTravStack .leaf) = .error () ∧
    travRun .TRAVERSING_PRE 1 (startTravStack .leaf) = .error () ∧
    travRun .TRAVERSING_POST 1 (startTravStack .leaf) = .error () :=
  ⟨rfl, rfl, rfl, rfl, rfl, rfl⟩

/-! Lemmas about the Search State Machine. -/

theorem bool_eq_of_iff {a b : Bool} (h : a = true ↔ b = true) : a = b := by
  cases a <;> cases b <;> simp_all

theorem runSearch_of_not_searching (v : Int) : ∀ (dts : List Int) (s : SearchState),
    s.mode ≠ .SEARCHING → runSearch v s dts = s := by
  intro dts
  induction dts with
  | nil => intro s _; rfl
  | cons dt dts ih =>
    intro s h
    have h1 : searchTick v s dt = s := by simp [searchTick, h]
    show List.foldl (searchTick v) (searchTick v s dt) dts = s
    rw [h1]
    exact ih s h

theorem updateSearch_null (v : Int) (s : SearchState) (dt : Int)
    (hcur : s.cur = .leaf) :
    updateSearch v s dt = { s with mode := .IDLE } := by
  unfold updateSearch
  rw [if_pos hcur]

theorem updateSearch_dwell (v : Int) (s : SearchState) (dt : Int)
    (hcur : s.cur ≠ .leaf) (hmt : s.moveTimer + dt < 60) :
    (updateSearch v s dt).cur = s.cur ∧ (updateSearch v s dt).found = s.found ∧
    (updateSearch v s dt).mode = s.mode ∧
    (updateSearch v s dt).moveTimer = s.moveTimer + dt := by
  unfold updateSearch
  rw [if_neg hcur]
  by_cases hb : s.algoTimer + dt > 50 ∧ s.algoStep < 3 <;> simp [hb, hmt]

theorem updateSearch_step (v : Int) (s : SearchState) (dt : Int) (l r : Tree) (x : Int)
    (hcur : s.cur = .node l x r) (hmt : ¬ s.moveTimer + dt < 60) :
    (updateSearch v s dt).moveTimer = 0 ∧
    (v = x → (updateSearch v s dt).found = true ∧
      (updateSearch v s dt).mode = .IDLE ∧ (updateSearch v s dt).cur = s.cur) ∧
    (v < x → (updateSearch v s dt).cur = l ∧
      (updateSearch v s dt).found = s.found ∧ (updateSearch v s dt).mode = s.mode) ∧
    (x < v → (updateSearch v s dt).cur = r ∧
      (updateSearch v s dt).found = s.found ∧ (updateSearch v s dt).mode = s.mode) := by
  have hne : s.cur ≠ Tree.leaf := by rw [hcur]; simp
  refine ⟨?_, fun hv => ?_, fun hv => ?_, fun hv => ?_⟩ <;>
    unfold updateSearch <;> rw [if_neg hne]
  · by_cases hb : s.algoTimer + dt > 50 ∧ s.algoStep < 3 <;>
      simp [hb, hmt, hcur] <;> split_ifs <;> rfl
  · cases hv
    by_cases hb : s.algoTimer + dt > 50 ∧ s.algoStep < 3 <;>
      simp [hb, hmt, hcur]
  · by_cases hb : s.algoTimer + dt > 50 ∧ s.algoStep < 3 <;>
      simp [hb, hmt, hcur, hv, hv.ne]
  · by_cases hb : s.algoTimer + dt > 50 ∧ s.algoStep < 3 <;>
      simp [hb, hmt, hcur, hv.ne', lt_asymm hv]

theorem runSearch_cons (v : Int) (s : SearchState) (dt : Int) (dts : List Int) :
    runSearch v s (dt :: dts) = runSearch v (searchTick v s dt) dts := rfl

theorem runSearch_replicate : ∀ t : Tree, ∀ (v : Int) (s : SearchState) (k : Nat),
    s.mode = .SEARCHING → s.cur = t → s.found = false → 0 ≤ s.moveTimer →
    isBST t = true → sizeT t ≤ k →
    (runSearch v s (List.replicate (k + 1) 60)).mode = .IDLE ∧
    (runSearch v s (List.replicate (k + 1) 60)).found = tmem v t := by
  intro t
  induction t with
  | leaf =>
    intro v s k hmode hcur hfound _ _ _
    have h1 : searchTick v s 60 = { s with mode := .IDLE } := by
      rw [searchTick, if_pos hmode, updateSearch_null v s 60 hcur]
    rw [List.replicate_succ, runSearch_cons, h1,
      runSearch_of_not_searching v _ _ (by simp)]
    exact ⟨rfl, by simp [tmem, hfound]⟩
  | node l x r ihl ihr =>
    intro v s k hmode hcur hfound hmt hb hk
    have hb0 := hb
    simp only [isBST, Bool.and_eq_true] at hb0
    obtain ⟨⟨⟨hal, har⟩, hbl⟩, hbr⟩ := hb0
    have hmt2 : ¬ s.moveTimer + 60 < 60 := by omega
    have hstep := updateSearch_step v s 60 l r x hcur hmt2
    have hsz : sizeT l ≤ k - 1 ∧ sizeT r ≤ k - 1 ∧ 1 ≤ k := by
      simp [sizeT] at hk; omega
    obtain ⟨k2, rfl⟩ : ∃ k2, k = k2 + 1 := ⟨k - 1, by omega⟩
    have htick : searchTick v s 60 = updateSearch v s 60 := by
      rw [searchTick, if_pos hmode]
    rw [List.replicate_succ, runSearch_cons, htick]
    rcases lt_trichotomy v x with h | h | h
    · obtain ⟨hc, hf, hm⟩ := hstep.2.2.1 h
      have hmem : tmem v (Tree.node l x r) = tmem v l :=
        bool_eq_of_iff (tmem_node_of_lt hb h)
      rw [hmem]
      exact ihl v (updateSearch v s 60) k2 (by rw [hm, hmode]) hc
        (by rw [hf, hfound]) (by rw [hstep.1]) hbl (by omega)
    · subst h
      obtain ⟨hf, hm, _⟩ := hstep.2.1 rfl
      rw [runSearch_of_not_searching v _ _ (by rw [hm]; simp)]
      refine ⟨hm, ?_⟩
      rw [hf]
      simp [tmem]
    · obtain ⟨hc, hf, hm⟩ := hstep.2.2.2 h
      have hmem : tmem v (Tree.node l x r) = tmem v r :=
        bool_eq_of_iff (tmem_node_of_gt hb h)
      rw [hmem]
      exact ihr v (updateSearch v s 60) k2 (by rw [hm, hmode]) hc
        (by rw [hf, hfound]) (by rw [hstep.1]) hbr (by omega)

/-- C5: the Search State Machine starts with the cursor on the root and
`found = false`; a step before the 0.6 s dwell has accumulated changes
neither cursor, flag nor mode; a null cursor ends the machine (IDLE) with
`found` untouched; once the dwell has elapsed, an equal key ends it with
`found = true`, a smaller / larger target moves the cursor to the left /
right child; consequently on every BST the machine, fed one dwell-length
frame per step, terminates in IDLE with `found` true exactly for keys
present — in particular, for trees built by inserts, exactly for the
inserted values. -/
theorem search_machine_correct (v : Int) (m0 : Int) (h0 : 0 ≤ m0) :
    (∀ t : Tree, (startSearch t m0).mode = .SEARCHING ∧ (startSearch t m0).cur = t ∧
      (startSearch t m0).found = false) ∧
    (∀ (s : SearchState) (dt : Int), s.cur ≠ .leaf → s.moveTimer + dt < 60 →
      (updateSearch v s dt).cur = s.cur ∧ (updateSearch v s dt).found = s.found ∧
      (updateSearch v s dt).mode = s.mode) ∧
    (∀ (s : SearchState) (dt : Int), s.cur = .leaf →
      updateSearch v s dt = { s with mode := .IDLE }) ∧
    (∀ (s : SearchState) (dt : Int) (l r : Tree) (x : Int), s.cur = .node l x r →
      ¬ s.moveTimer + dt < 60 →
      (v = x → (updateSearch v s dt).found = true ∧ (updateSearch v s dt).mode = .IDLE) ∧
      (v < x → (updateSearch v s dt).cur = l ∧ (updateSearch v s dt).mode = s.mode) ∧
      (x < v → (updateSearch v s dt).cur = r ∧ (updateSearch v s dt).mode = s.mode)) ∧
    (∀ t : Tree, isBST t = true →
      (runSearch v (startSearch t m0) (List.replicate (sizeT t + 1) 60)).mode = .IDLE ∧
      (runSearch v (startSearch t m0) (List.replicate (sizeT t + 1) 60)).found = tmem v t) ∧
    (∀ xs : List Int,
      ((runSearch v (startSearch (buildTree xs) m0)
          (List.replicate (sizeT (buildTree xs) + 1) 60)).found = true ↔ v ∈ xs)) := by
  have main : ∀ t : Tree, isBST t = true →
      (runSearch v (startSearch t m0) (List.replicate (sizeT t + 1) 60)).mode = .IDLE ∧
      (runSearch v (startSearch t m0) (List.replicate (sizeT t + 1) 60)).found = tmem v t :=
    fun t hbst => runSearch_replicate t v (startSearch t m0) (sizeT t)
      rfl rfl rfl h0 hbst (le_refl _)
  refine ⟨fun t => ⟨rfl, rfl, rfl⟩, ?_, ?_, ?_, main, ?_⟩
  · intro s dt hcur hmt
    obtain ⟨a, b, c, _⟩ := updateSearch_dwell v s dt hcur hmt
    exact ⟨a, b, c⟩
  · exact fun s dt h => updateSearch_null v s dt h
  · intro s dt l r x hcur hmt
    have h := updateSearch_step v s dt l r x hcur hmt
    exact ⟨fun hv => ⟨(h.2.1 hv).1, (h.2.1 hv).2.1⟩,
           fun hv => ⟨(h.2.2.1 hv).1, (h.2.2.1 hv).2.2⟩,
           fun hv => ⟨(h.2.2.2 hv).1, (h.2.2.2 hv).2.2⟩⟩
  · intro xs
    have h := (main (buildTree xs) (isBST_buildTree_aux xs .leaf rfl)).2
    rw [h]
    exact tmem_buildTree v xs

/-- Witness for C5: searching 30 (present, found) and 99 (absent, not
found) in the tree built from 50, 30, 70. -/
theorem search_machine_correct_witness :
    (0 : Int) ≤ 0 ∧
    ((runSearch 30 (startSearch (buildTree [50, 30, 70]) 0)
        (List.replicate (sizeT (buildTree [50, 30, 70]) + 1) 60)).found = true ↔
      (30 : Int) ∈ [50, 30, 70]) ∧
    (runSearch 99 (startSearch (buildTree [50, 30, 70]) 0)
        (List.replicate (sizeT (buildTree [50, 30, 70]) + 1) 60)).found = false :=
  ⟨le_refl 0, (search_machine_correct 30 0 (le_refl 0)).2.2.2.2.2 [50, 30, 70],
    by decide⟩

/-- C3: for every finite sequence of integer values, inserting them in
order into the empty tree yields a tree satisfying the BST ordering
invariant (all keys of a left subtree strictly below the node key, all
keys of a right subtree strictly above it). -/
theorem insert_sequence_isBST (xs : List Int) : isBST (buildTree xs) = true :=
  isBST_buildTree_aux xs .leaf rfl

/-- C2: deleting a key present in a BST removes exactly one node, the
result is again a BST, and exactly the deleted key disappears (every other
key survives, the deleted key is gone entirely, so the two-children value
substitution leaves no duplicate key). -/
theorem delete_present_correct (t : Tree) (v : Int)
    (hb : isBST t = true) (hv : tmem v t = true) :
    sizeT (DeleteNode t v) + 1 = sizeT t ∧
    isBST (DeleteNode t v) = true ∧
    ∀ x : Int, tmem x (DeleteNode t v) = true ↔ (tmem x t = true ∧ x ≠ v) :=
  ⟨sizeT_DeleteNode t hb v hv, isBST_DeleteNode t hb v,
    fun x => tmem_DeleteNode t hb v x⟩

/-- Witness for C2 at the spec example tree, deleting the two-children
node 30. -/
theorem delete_present_correct_witness :
    (isBST (buildTree [50, 30, 70, 20, 40]) = true ∧
     tmem 30 (buildTree [50, 30, 70, 20, 40]) = true) ∧
    (sizeT (DeleteNode (buildTree [50, 30, 70, 20, 40]) 30) + 1 =
       sizeT (buildTree [50, 30, 70, 20, 40]) ∧
     isBST (DeleteNode (buildTree [50, 30, 70, 20, 40]) 30) = true ∧
     ∀ x : Int, tmem x (DeleteNode (buildTree [50, 30, 70, 20, 40]) 30) = true ↔
       (tmem x (buildTree [50, 30, 70, 20, 40]) = true ∧ x ≠ 30)) :=
  ⟨⟨by decide, by decide⟩,
    delete_present_correct (buildTree [50, 30, 70, 20, 40]) 30
      (by decide) (by decide)⟩

/-- C8: inserting a key already present in a BST is a no-op — the tree is
returned unchanged, and hence inserting the same key twice gives the same
tree as inserting it once. -/
theorem insert_duplicate_noop (t : Tree) (v : Int)
    (hb : isBST t = true) (hv : tmem v t = true) :
    Insert t v = t ∧ Insert (Insert t v) v = Insert t v := by
  have h1 := Insert_of_mem t hb v hv
  exact ⟨h1, by rw [h1]; exact h1⟩

/-- Witness for C8 at the spec example tree with the duplicate key 70. -/
theorem insert_duplicate_noop_witness :
    (isBST (buildTree [50, 30, 70, 20, 40]) = true ∧
     tmem 70 (buildTree [50, 30, 70, 20, 40]) = true) ∧
    (Insert (buildTree [50, 30, 70, 20, 40]) 70 = buildTree [50, 30, 70, 20, 40] ∧
     Insert (Insert (buildTree [50, 30, 70, 20, 40]) 70) 70 =
       Insert (buildTree [50, 30, 70, 20, 40]) 70) :=
  ⟨⟨by decide, by decide⟩,
    insert_duplicate_noop (buildTree [50, 30, 70, 20, 40]) 70 (by decide) (by decide)⟩

/-- C7: deleting an absent key changes nothing: `DeleteNode` returns the
tree unchanged (for any tree, BST or not), and `StartDeleteAnimation`
fails to locate a node, so the Delete State Machine aborts to IDLE right
after its locate loop with no structural or visual effect — every later
frame leaves the tree, the mode and the node visuals untouched (only the
arrow keys may still change the input value). -/
theorem delete_absent_noop (t : Tree) (v : Int) (y0 a0 : Int) (c0 : Bool)
    (hv : tmem v t = false) :
    DeleteNode t v = t ∧
    (startDelete t v y0 a0 c0).mode = .IDLE ∧
    (startDelete t v y0 a0 c0).delNode = none ∧
    (startDelete t v y0 a0 c0).root = t ∧
    ∀ e : DelEvent,
      (delTick (startDelete t v y0 a0 c0) e).root = t ∧
      (delTick (startDelete t v y0 a0 c0) e).mode = .IDLE ∧
      (delTick (startDelete t v y0 a0 c0) e).delY = y0 ∧
      (delTick (startDelete t v y0 a0 c0) e).delAlpha = a0 ∧
      (delTick (startDelete t v y0 a0 c0) e).delRed = c0 := by
  have hloc : locate t v = none := locate_not_mem t v hv
  refine ⟨DeleteNode_not_mem t v hv, ?_, ?_, ?_, ?_⟩
  · simp [startDelete, hloc]
  · simp [startDelete, hloc]
  · simp [startDelete]
  · intro e
    simp [startDelete, hloc, delTick]

/-- Witness for C7: deleting the absent key 42 from the spec example
tree. -/
theorem delete_absent_noop_witness :
    tmem 42 (buildTree [50, 30, 70, 20, 40]) = false ∧
    (DeleteNode (buildTree [50, 30, 70, 20, 40]) 42 = buildTree [50, 30, 70, 20, 40] ∧
     (startDelete (buildTree [50, 30, 70, 20, 40]) 42 80 100 false).mode = .IDLE ∧
     (startDelete (buildTree [50, 30, 70, 20, 40]) 42 80 100 false).delNode = none ∧
     (startDelete (buildTree [50, 30, 70, 20, 40]) 42 80 100 false).root =
       buildTree [50, 30, 70, 20, 40] ∧
     ∀ e : DelEvent,
       (delTick (startDelete (buildTree [50, 30, 70, 20, 40]) 42 80 100 false) e).root =
         buildTree [50, 30, 70, 20, 40] ∧
       (delTick (startDelete (buildTree [50, 30, 70, 20, 40]) 42 80 100 false) e).mode = .IDLE ∧
       (delTick (startDelete (buildTree [50, 30, 70, 20, 40]) 42 80 100 false) e).delY = 80 ∧
       (delTick (startDelete (buildTree [50, 30, 70, 20, 40]) 42 80 100 false) e).delAlpha = 100 ∧
       (delTick (startDelete (buildTree [50, 30, 70, 20, 40]) 42 80 100 false) e).delRed = false) :=
  ⟨by decide,
    delete_absent_noop (buildTree [50, 30, 70, 20, 40]) 42 80 100 false (by decide)⟩

/-- C6 (code evidence): the pure parts of the spec example hold — inserting
50, 30, 70, 20, 40 yields recursive in-order 20, 30, 40, 50, 70 and
pre-order 50, 30, 20, 40, 70, the right subtree of node 30 has minimum 40,
and deleting 30 substitutes that minimum and removes the 40 leaf, leaving
root 50 with left child 40 (whose left child is 20) and right child 70 —
but the Traversal Engine does not deliver the claimed visit order on this
very input: started fresh (the `travStack` vector has never allocated, so
the start push leaves capacity 1), the first in-order or post-order step,
and the second pre-order step, push a child frame at size == capacity; the
`push_back` reallocates and the pending `frame.state` write goes through a
dangling reference — undefined behavior (modelled as an error) instead of
the claimed sequences.  The final conjunct shows the intent: were the
vector already big enough (capacity 16) so that no push reallocates, the
run would deliver exactly the claimed in-order sequence. -/
theorem example_insert_delete_traversal_crash :
    inorder (buildTree [50, 30, 70, 20, 40]) = [20, 30, 40, 50, 70] ∧
    preorder (buildTree [50, 30, 70, 20, 40]) = [50, 30, 20, 40, 70] ∧
    MinNode (.node .leaf 40 .leaf) = some 40 ∧
    DeleteNode (buildTree [50, 30, 70, 20, 40]) 30 =
      .node (.node (.node .leaf 20 .leaf) 40 .leaf) 50 (.node .leaf 70 .leaf) ∧
    travStepV .TRAVERSING_IN
      (startTravVec (buildTree [50, 30, 70, 20, 40]) 0) = .error () ∧
    travRunV .TRAVERSING_IN 20
      (startTravVec (buildTree [50, 30, 70, 20, 40]) 0) = .error () ∧
    travRunV .TRAVERSING_PRE 20
      (startTravVec (buildTree [50, 30, 70, 20, 40]) 0) = .error () ∧
    travRunV .TRAVERSING_POST 20
      (startTravVec (buildTree [50, 30, 70, 20, 40]) 0) = .error () ∧
    travRunV .TRAVERSING_IN 20
      (startTravVec (buildTree [50, 30, 70, 20, 40]) 16) = .ok [20, 30, 40, 50, 70] :=
  ⟨rfl, rfl, rfl, by decide, rfl, rfl, rfl, rfl, rfl⟩

end BSTV
